import Mathlib

/-!
Verification of the bichme parallel remote-execution engine.

This file gives a shallow embedding of the core of the repository:
the task bitset (tasks.go), the line-buffered output sink (output.go),
the run identifier and stats summary (util.go), the history reader
(history code: ListHistory, entryTime, entryName), the per-host job
state machine (Job.Start, Job.Upload), the file-transfer operations
(upload, uploadFile, makeExec, download, downloadPath, downloadDir,
downloadFile, downloadSymlink, randHex) and the orchestrator's
retire/re-enqueue decision (Run).

Go byte strings are modelled as lists of byte values (Nat).  Remote and
local file systems are modelled as association lists.  Randomness
(crypto/rand.Read) is modelled by threading an explicit byte source.
External effects (the ssh dial, the exec session, sftp liveness) are
modelled by injecting their outcomes as explicit parameters.
-/

set_option maxRecDepth 4000

namespace Bichme

/-- Go byte strings: a list of byte values. -/
abbrev GoStr := List Nat

/-- Bytes of a Lean string literal, used for concrete inputs. -/
def strBytes (s : String) : GoStr := s.toList.map Char.toNat

/-- Go errors.  `sentinelErr` models `errors.New` (distinct ids give distinct
    identities), `wrap a b` models `fmt.Errorf` with two `%w` verbs, and the
    two extra constructors model `context.Canceled` and
    `os.ErrDeadlineExceeded`. -/
inductive GoErr where
  | sentinelErr (id : Nat) (msg : String)
  | wrap (outer inner : GoErr)
  | ctxCanceled
  | deadlineExceeded
deriving DecidableEq, Repr

/-- `errors.Is`: target is the error itself or appears in its wrap chain. -/
def errorsIs : GoErr → GoErr → Bool
  | .wrap a b, target =>
      (GoErr.wrap a b == target) || errorsIs a target || errorsIs b target
  | e, target => e == target

/-- ErrConnection (part_003 of job code). -/
def errConnection : GoErr := .sentinelErr 0 "connection failed"

/-- ErrFileTransfer (part_003 of job code). -/
def errFileTransfer : GoErr := .sentinelErr 1 "file transfer failed"

/-- ErrExecution (part_003 of job code, also used by run.go). -/
def errExecution : GoErr := .sentinelErr 2 "execution failed"

/-- ErrExection: the older, differently spelled sentinel still referenced by
    WriteStats in util.go.  It is a distinct error identity. -/
def errExection : GoErr := .sentinelErr 3 "exection failed"

/-! ## Task bitset (tasks.go) -/

/-- Tasks is a bit mask that can hold all the things a job should do. -/
abbrev Tasks := Nat

def KeepHistoryTask : Tasks := 1
def ExecTask : Tasks := 2
def DownloadTask : Tasks := 4
def UploadTask : Tasks := 8
def CleanupTask : Tasks := 16

/-- Has reports whether flag is set in t. -/
def tasksHas (t flag : Tasks) : Bool := t.land flag != 0

/-- Unset the given flag from t (Go `t &^= flag`; for masks whose set bits are
    a subset of t's bits or disjoint from them this is subtraction of the
    common bits). -/
def tasksUnset (t flag : Tasks) : Tasks := t - t.land flag

/-- Done reports whether all flags from t are unset. -/
def tasksDone (t : Tasks) : Bool := t == 0

/-! ## Output sink (output.go) -/

/-- State of an Output: the prefix, the bytes already emitted to the terminal
    writer, the internal line buffer, and the attached log file's content (if
    a file is attached). -/
structure OutputSt where
  pre : GoStr
  stdout : GoStr
  buf : GoStr
  file : Option GoStr
deriving DecidableEq, Repr

/-- Split a byte string at its first newline: `some (b, r)` when
    `p = b ++ 10 :: r` with no newline in `b`; `none` when `p` has no
    newline.  This models `bytes.Index(p, newline)`. -/
def breakNL : GoStr → Option (GoStr × GoStr)
  | [] => none
  | c :: rest =>
      if c = 10 then some ([], rest)
      else (breakNL rest).map (fun br => (c :: br.1, br.2))

theorem breakNL_some_shape : ∀ {p b r : GoStr},
    breakNL p = some (b, r) → p = b ++ 10 :: r := by
  intro p
  induction p with
  | nil => intro b r h; simp [breakNL] at h
  | cons c rest ih =>
      intro b r h
      by_cases hc : c = 10
      · simp [breakNL, hc] at h
        obtain ⟨hb, hr⟩ := h
        subst hc; subst hb; subst hr
        rfl
      · simp [breakNL, hc] at h
        obtain ⟨b1, hbr, hb⟩ := h
        have hp := ih hbr
        subst hb
        simp [hp]

theorem breakNL_some_length {p b r : GoStr}
    (h : breakNL p = some (b, r)) : r.length < p.length := by
  have := breakNL_some_shape h
  subst this
  simp
  omega

/-- Output.bufferOut: append p to the buffer; for each newline, print
    `pre ++ ":\t" ++ buffer` to the terminal writer and reset the buffer. -/
def bufferOut (st : OutputSt) (p : GoStr) : OutputSt :=
  match h : breakNL p with
  | none => { st with buf := st.buf ++ p }
  | some (b, r) =>
      bufferOut
        { st with
          stdout := st.stdout ++ st.pre ++ [58, 9] ++ st.buf ++ b ++ [10],
          buf := [] } r
termination_by p.length
decreasing_by exact breakNL_some_length h

/-- Output.Write: write p to the attached file (if any) and buffer p toward
    the terminal.  Returns the (n, err) pair produced by the file's Write
    (the file write is modelled as accepting all bytes), which is (0, nil)
    when no file is attached. -/
def outputWrite (st : OutputSt) (p : GoStr) : (Nat × Option GoErr) × OutputSt :=
  match st.file with
  | some f => ((p.length, none), bufferOut { st with file := some (f ++ p) } p)
  | none => ((0, none), bufferOut st p)

/-- Output.Flush: if the buffer is non-empty, run bufferOut on a newline. -/
def outputFlush (st : OutputSt) : OutputSt :=
  if 0 < st.buf.length then bufferOut st [10] else st

/-- A sequence of Write calls, keeping only the state. -/
def outputWriteAll (st : OutputSt) (ps : List GoStr) : OutputSt :=
  ps.foldl (fun s p => (outputWrite s p).2) st

/-- Specification function: the framed complete lines of s, given a carried
    partial line: each complete line of carry ++ s is emitted as
    `pre ++ ":\t" ++ line ++ "\n"`. -/
def framedFrom (pre : GoStr) (carry : GoStr) : GoStr → GoStr
  | [] => []
  | c :: rest =>
      if c = 10 then pre ++ [58, 9] ++ carry ++ [10] ++ framedFrom pre [] rest
      else framedFrom pre (carry ++ [c]) rest

/-- Specification function: the trailing partial line of carry ++ s. -/
def trailingFrom (carry : GoStr) : GoStr → GoStr
  | [] => carry
  | c :: rest =>
      if c = 10 then trailingFrom [] rest else trailingFrom (carry ++ [c]) rest

/-! ## Association lists (the file-system and map states) -/

section AssocList

variable {κ ν : Type} [DecidableEq κ]

def alLookup : List (κ × ν) → κ → Option ν
  | [], _ => none
  | (k2, v) :: rest, k => if k2 = k then some v else alLookup rest k

def alSet : List (κ × ν) → κ → ν → List (κ × ν)
  | [], k, v => [(k, v)]
  | (k2, v2) :: rest, k, v =>
      if k2 = k then (k2, v) :: rest else (k2, v2) :: alSet rest k v

def alRemove (l : List (κ × ν)) (k : κ) : List (κ × ν) :=
  l.filter (fun e => e.1 ≠ k)

end AssocList

/-! ## Byte-string helpers shared by the run-id and history code -/

/-- Decimal digits of n, most significant first, as bytes (`fmt` `%d`). -/
def natStr (n : Nat) : GoStr :=
  if n = 0 then [48] else (Nat.digits 10 n).reverse.map (fun d => 48 + d)

/-- Two-digit zero-padded decimal (the Go time layouts `01`, `02`, `15`,
    `04`, `05` print two-digit zero-padded fields). -/
def pad2 (n : Nat) : GoStr := if n < 10 then [48, 48 + n] else natStr n

/-- Split at the first occurrence of the byte sep: `some (a, b)` when
    `s = a ++ sep :: b` with no sep in a, else `none`.  This models
    `strings.SplitN(s, sep, 2)` (which yields one part when sep is absent). -/
def splitFirstB (sep : Nat) : GoStr → Option (GoStr × GoStr)
  | [] => none
  | c :: rest =>
      if c = sep then some ([], rest)
      else (splitFirstB sep rest).map (fun br => (c :: br.1, br.2))

theorem splitFirstB_some_shape : ∀ {sep : Nat} {p b r : GoStr},
    splitFirstB sep p = some (b, r) → p = b ++ sep :: r := by
  intro sep p
  induction p with
  | nil => intro b r h; simp [splitFirstB] at h
  | cons c rest ih =>
      intro b r h
      by_cases hc : c = sep
      · simp [splitFirstB, hc] at h
        obtain ⟨hb, hr⟩ := h
        subst hc; subst hb; subst hr
        rfl
      · simp [splitFirstB, hc] at h
        obtain ⟨b1, hbr, hb⟩ := h
        have hp := ih hbr
        subst hb
        simp [hp]

theorem splitFirstB_some_length {sep : Nat} {p b r : GoStr}
    (h : splitFirstB sep p = some (b, r)) : r.length < p.length := by
  have := splitFirstB_some_shape h
  subst this
  simp
  omega

/-- `bytes.Split(s, [sep])`: all chunks (one empty chunk for empty input). -/
def splitAllB (sep : Nat) : GoStr → List GoStr
  | [] => [[]]
  | c :: rest =>
      if c = sep then [] :: splitAllB sep rest
      else
        match splitAllB sep rest with
        | [] => [[c]]
        | a :: as => (c :: a) :: as

/-- Number of occurrences of a byte (`strings.Count` for one byte). -/
def countB (sep : Nat) (s : GoStr) : Nat := s.countP (fun c => c == sep)

/-- Go `unicode.IsSpace` restricted to ASCII, as used by `strings.TrimSpace`. -/
def isSpaceB (c : Nat) : Bool :=
  c == 32 || c == 9 || c == 10 || c == 13 || c == 11 || c == 12

/-- `strings.TrimSpace` on bytes. -/
def trimSpaceB (s : GoStr) : GoStr :=
  ((s.dropWhile isSpaceB).reverse.dropWhile isSpaceB).reverse

/-! ## Run identifier (util.go) -/

/-- `t.Format(time.DateOnly)`: `YYYY-MM-DD`. -/
def dateOnlyStr (y mo d : Nat) : GoStr :=
  natStr y ++ [45] ++ pad2 mo ++ [45] ++ pad2 d

/-- `t.Format(time.TimeOnly)`: `HH:MM:SS` - note the colons (byte 58). -/
def timeOnlyStr (h mi s : Nat) : GoStr :=
  pad2 h ++ [58] ++ pad2 mi ++ [58] ++ pad2 s

/-- runID from util.go:
    `fmt.Sprintf("%s/%s.%d", t.Format(time.DateOnly), t.Format(time.TimeOnly), os.Getpid())`. -/
def runID (y mo d h mi s pid : Nat) : GoStr :=
  dateOnlyStr y mo d ++ [47] ++ timeOnlyStr h mi s ++ [46] ++ natStr pid

/-! ## History entry-name parsing (history code, part_000) -/

/-- A parsed wall-clock value (year, month, day, hour, minute, second). -/
abbrev Time6 := Nat × Nat × Nat × Nat × Nat × Nat

def zeroTime6 : Time6 := (0, 0, 0, 0, 0, 0)

def isDigitB (c : Nat) : Bool := 48 ≤ c && c ≤ 57

/-- Read exactly two decimal digit bytes. -/
def parse2 : GoStr → Option (Nat × GoStr)
  | c1 :: c2 :: rest =>
      if isDigitB c1 && isDigitB c2 then
        some ((c1 - 48) * 10 + (c2 - 48), rest)
      else none
  | _ => none

/-- Read exactly four decimal digit bytes. -/
def parse4 (s : GoStr) : Option (Nat × GoStr) :=
  match parse2 s with
  | none => none
  | some (hi, rest) =>
      match parse2 rest with
      | none => none
      | some (lo, rest2) => some (hi * 100 + lo, rest2)

/-- Require the next byte to be c. -/
def expectB (c : Nat) : GoStr → Option GoStr
  | d :: rest => if d = c then some rest else none
  | [] => none

def isLeapYear (y : Nat) : Bool :=
  (y % 4 == 0 && y % 100 != 0) || y % 400 == 0

def daysIn (mo y : Nat) : Nat :=
  if mo = 2 then (if isLeapYear y then 29 else 28)
  else if mo = 4 ∨ mo = 6 ∨ mo = 9 ∨ mo = 11 then 30
  else 31

/-- `time.Parse("2006-01-02/15-04-05", s)`: four-digit year, two-digit
    zero-padded fields, literal separators `-`, `-`, `/`, `-`, `-`, with
    Go's range validation, and the whole value must be consumed. -/
def parseRunDir (s0 : GoStr) : Option Time6 :=
  match parse4 s0 with
  | none => none
  | some (y, s1) =>
  match expectB 45 s1 with
  | none => none
  | some s2 =>
  match parse2 s2 with
  | none => none
  | some (mo, s3) =>
  if mo < 1 ∨ 12 < mo then none else
  match expectB 45 s3 with
  | none => none
  | some s4 =>
  match parse2 s4 with
  | none => none
  | some (d, s5) =>
  if d < 1 ∨ daysIn mo y < d then none else
  match expectB 47 s5 with
  | none => none
  | some s6 =>
  match parse2 s6 with
  | none => none
  | some (h, s7) =>
  if 23 < h then none else
  match expectB 45 s7 with
  | none => none
  | some s8 =>
  match parse2 s8 with
  | none => none
  | some (mi, s9) =>
  if 59 < mi then none else
  match expectB 45 s9 with
  | none => none
  | some s10 =>
  match parse2 s10 with
  | none => none
  | some (sec, s11) =>
  if 59 < sec then none
  else if s11 = [] then some (y, mo, d, h, mi, sec)
  else none

/-- entryTime (history code, part_000):
    splits the relative path `date/time.pid` at the first slash, strips
    everything from the first dot of the second part, and parses the result
    against the layout `2006-01-02/15-04-05`.  A path without a slash would
    panic in the source (index out of range); it is modelled as `none`. -/
def entryTime (path : GoStr) : Option Time6 :=
  match splitFirstB 47 path with
  | none => none
  | some (datePart, rest) =>
      let timePart :=
        match splitFirstB 46 rest with
        | none => rest
        | some (t, _) => t
      parseRunDir (datePart ++ [47] ++ timePart)

/-- entryName (history code, part_000): the first two slash-separated
    components of the relative path, joined by a slash. -/
def entryName (path : GoStr) : GoStr :=
  match splitFirstB 47 path with
  | none => path
  | some (p0, rest) =>
      match splitFirstB 47 rest with
      | none => p0 ++ [47] ++ rest
      | some (p1, _) => p0 ++ [47] ++ p1

/-! ## History reader (ListHistory, part_000) -/

/-- HostResult (run.go): error kind, tries, duration in nanoseconds. -/
structure HostResult where
  error : GoStr
  tries : Nat
  duration : Nat
deriving DecidableEq, Repr

/-- HistoryItem (part_000).  The time is the parsed wall-clock value. -/
structure HistoryItem where
  path : GoStr
  time : Time6
  duration : Nat
  hosts : List (GoStr × HostResult)
  files : List GoStr
  logs : List GoStr
  command : GoStr
deriving DecidableEq, Repr

def emptyHistoryItem : HistoryItem :=
  ⟨[], zeroTime6, 0, [], [], [], []⟩

/-- The leaf parsers ListHistory delegates to: `time.Parse(time.RFC3339, -)`
    for the start file, `time.ParseDuration` for the duration file and
    `json.Unmarshal` for hosts.json.  They are kept abstract: the claims
    settled here hold for every choice of these parsers. -/
structure FieldParsers where
  parseStart : GoStr → Option Time6
  parseDuration : GoStr → Option Nat
  parseHosts : GoStr → Option (List (GoStr × HostResult))

/-- One entry yielded by `fs.WalkDir` over the history root: the relative
    path (as slash-free segments), whether it is a directory, and - for
    files - the content read by `fs.ReadFile`. -/
structure WalkEntry where
  segs : List GoStr
  isDir : Bool
  content : GoStr
deriving DecidableEq, Repr

/-- The relative path string of a walk entry (segments joined by slashes). -/
def pathStr (segs : List GoStr) : GoStr := List.intercalate [47] segs

def itemsGet (items : List (GoStr × HistoryItem)) (k : GoStr) : Option HistoryItem :=
  alLookup items k

def itemsSet (items : List (GoStr × HistoryItem)) (k : GoStr) (v : HistoryItem) :
    List (GoStr × HistoryItem) :=
  alSet items k v

/-- `time.Duration.Round(time.Second)` for non-negative durations in ns. -/
def durRoundSec (d : Nat) : Nat :=
  ((d + 500000000) / 1000000000) * 1000000000

/-- The depth-2 file classification of ListHistory: update the entry keyed by
    the containing run directory according to the file's base name. -/
def applyHistoryFile (P : FieldParsers) (root ps name content : GoStr)
    (entry : HistoryItem) : HistoryItem :=
  if name = strBytes "start" then
    { entry with time := (P.parseStart content).getD zeroTime6 }
  else if name = strBytes "command" then
    { entry with command := trimSpaceB content }
  else if name = strBytes "files" then
    { entry with files := splitAllB 10 content }
  else if name = strBytes "hosts.json" then
    match P.parseHosts content with
    | none => entry
    | some hs => { entry with hosts := hs }
  else if name = strBytes "duration" then
    { entry with duration := durRoundSec ((P.parseDuration content).getD 0) }
  else if (strBytes ".log").isSuffixOf name then
    { entry with logs := entry.logs ++ [root ++ [47] ++ ps] }
  else entry

/-- Entries removed by returning `fs.SkipDir` from a directory: the
    strict descendants of that directory. -/
def skipSubtree (p : List GoStr) (rest : List WalkEntry) : List WalkEntry :=
  rest.filter (fun e => !(p.isPrefixOf e.segs && e.segs != p))

/-- Entries removed by returning `fs.SkipDir` from a file: the remaining
    entries inside the file's containing directory. -/
def skipSiblings (p : List GoStr) (rest : List WalkEntry) : List WalkEntry :=
  rest.filter (fun e => !((p.dropLast).isPrefixOf e.segs))

theorem skipSubtree_length_le (p : List GoStr) (rest : List WalkEntry) :
    (skipSubtree p rest).length ≤ rest.length := List.length_filter_le _ _

theorem skipSiblings_length_le (p : List GoStr) (rest : List WalkEntry) :
    (skipSiblings p rest).length ≤ rest.length := List.length_filter_le _ _

/-- The WalkDir body of ListHistory (part_000), threaded over the walk
    entries with `fs.SkipDir` handling.  Depth 0: skip.  Depth 1 dirs: parse
    the name with entryTime; on failure skip the subtree, on success insert a
    fresh item.  Depth 2 dirs: skip the subtree; depth 2 files: classify by
    base name.  Deeper: skip. -/
def walkHistory (P : FieldParsers) (root : GoStr) :
    List WalkEntry → List (GoStr × HistoryItem) → List (GoStr × HistoryItem)
  | [], items => items
  | e :: rest, items =>
      let ps := pathStr e.segs
      match countB 47 ps with
      | 0 => walkHistory P root rest items
      | 1 =>
          if e.isDir then
            match entryTime ps with
            | none => walkHistory P root (skipSubtree e.segs rest) items
            | some t =>
                walkHistory P root rest
                  (itemsSet items ps
                    { emptyHistoryItem with path := root ++ [47] ++ ps, time := t })
          else walkHistory P root rest items
      | 2 =>
          if e.isDir then walkHistory P root (skipSubtree e.segs rest) items
          else
            match itemsGet items (entryName ps) with
            | none => walkHistory P root rest items
            | some entry =>
                let nm := (e.segs.getLast?).getD []
                walkHistory P root rest
                  (itemsSet items (entryName ps)
                    (applyHistoryFile P root ps nm e.content entry))
      | _ + 3 =>
          if e.isDir then walkHistory P root (skipSubtree e.segs rest) items
          else walkHistory P root (skipSiblings e.segs rest) items
termination_by entries => entries.length
decreasing_by
  all_goals simp
  · exact Nat.lt_succ_of_le (skipSubtree_length_le _ _)
  · exact Nat.lt_succ_of_le (skipSubtree_length_le _ _)
  · exact Nat.lt_succ_of_le (skipSubtree_length_le _ _)
  · exact Nat.lt_succ_of_le (skipSiblings_length_le _ _)

/-- A key order-isomorphic to `Time.UnixMicro` on valid wall-clock values
    (lexicographic recombination of the six fields; history times have zero
    sub-second part, so the comparison agrees with the source's
    microsecond-granularity comparison). -/
def timeKey (t : Time6) : Nat :=
  ((((t.1 * 13 + t.2.1) * 32 + t.2.2.1) * 24 + t.2.2.2.1) * 60 + t.2.2.2.2.1) * 60
    + t.2.2.2.2.2

/-- Insert into a list sorted descending by time key (the sort of
    `slices.SortedFunc` with `cmp.Compare(b.Time.UnixMicro(), a.Time.UnixMicro())`). -/
def insertByTimeDesc (x : HistoryItem) : List HistoryItem → List HistoryItem
  | [] => [x]
  | y :: rest =>
      if timeKey y.time < timeKey x.time then x :: y :: rest
      else y :: insertByTimeDesc x rest

def sortByTimeDesc (l : List HistoryItem) : List HistoryItem :=
  l.foldr insertByTimeDesc []

/-- ListHistory (part_000): walk the entries, then return the collected
    items sorted descending by start time. -/
def listHistory (P : FieldParsers) (root : GoStr) (entries : List WalkEntry) :
    List HistoryItem :=
  sortByTimeDesc ((walkHistory P root entries []).map (·.2))

/-- The walk entries of the run directory written by Run (run.go) with
    History enabled: the date directory, the `HH:MM:SS.pid` directory, and
    inside it the metadata files command, duration, files, hosts.json and
    start (lexicographic walk order).  Contents are the written bytes. -/
def runHistoryWalk (y mo d h mi s pid : Nat)
    (cmdC durC filesC hostsC startC : GoStr) : List WalkEntry :=
  let dateSeg := dateOnlyStr y mo d
  let timeSeg := timeOnlyStr h mi s ++ [46] ++ natStr pid
  [ ⟨[dateSeg], true, []⟩,
    ⟨[dateSeg, timeSeg], true, []⟩,
    ⟨[dateSeg, timeSeg, strBytes "command"], false, cmdC⟩,
    ⟨[dateSeg, timeSeg, strBytes "duration"], false, durC⟩,
    ⟨[dateSeg, timeSeg, strBytes "files"], false, filesC⟩,
    ⟨[dateSeg, timeSeg, strBytes "hosts.json"], false, hostsC⟩,
    ⟨[dateSeg, timeSeg, strBytes "start"], false, startC⟩ ]

/-! ## Stats summary (WriteStats, util.go) -/

/-- The per-job fields WriteStats reads from the archive. -/
structure JobRec where
  host : GoStr
  tries : Nat
  tasks : Tasks
deriving DecidableEq, Repr

/-- The `statuses` map of WriteStats, with its five fixed keys. -/
structure StatCounts where
  done : Nat
  running : Nat
  conn : Nat
  file : Nat
  exec : Nat
deriving DecidableEq, Repr

def emptyStatCounts : StatCounts := ⟨0, 0, 0, 0, 0⟩

/-- One iteration of the WriteStats switch.  Note the execution bucket tests
    `errors.Is(err, ErrExection)` - the old sentinel - exactly as util.go
    does; anything not matching a sentinel falls to the default branch
    (logged at debug, not counted). -/
def statBucket (rec : JobRec) (err : Option GoErr) (acc : StatCounts) : StatCounts :=
  match err with
  | none =>
      if tasksDone rec.tasks then { acc with done := acc.done + 1 }
      else { acc with running := acc.running + 1 }
  | some e =>
      if errorsIs e errConnection then { acc with conn := acc.conn + 1 }
      else if errorsIs e errFileTransfer then { acc with file := acc.file + 1 }
      else if errorsIs e errExection then { acc with exec := acc.exec + 1 }
      else acc

/-- The counting pass of WriteStats over the archive: the maximum observed
    tries and the statuses map. -/
def writeStatsCounts (archive : List (JobRec × Option GoErr)) : Nat × StatCounts :=
  archive.foldl
    (fun (acc : Nat × StatCounts) je =>
      (max acc.1 je.1.tries, statBucket je.1 je.2 acc.2))
    (0, emptyStatCounts)

/-- The rendered WriteStats report. -/
def writeStatsOut (archive : List (JobRec × Option GoErr)) : GoStr :=
  let mc := writeStatsCounts archive
  let maxTry := mc.1
  let c := mc.2
  strBytes "\n============== " ++ natStr maxTry ++ strBytes " =============\n"
  ++ (if 0 < c.conn then strBytes " Connection failed:\t" ++ natStr c.conn ++ [10] else [])
  ++ (if 0 < c.file then strBytes " File Transfer failed:\t" ++ natStr c.file ++ [10] else [])
  ++ (if 0 < c.exec then strBytes " Execution failed:\t" ++ natStr c.exec ++ [10] else [])
  ++ (if 0 < c.running then strBytes " Running:\t\t" ++ natStr c.running ++ [10] else [])
  ++ (if 0 < c.done then strBytes " Done:\t\t\t" ++ natStr c.done ++ [10] else [])
  ++ strBytes "===============================\n Total:\t"
  ++ natStr archive.length
  ++ strBytes "\n===============================\n\n"

/-! ## Job state machine (Job.Start, part_003) -/

/-- The mutable job state Start touches: try counter, retry bound, pending
    task bits, whether the ssh and sftp transport handles are present, and
    whether an output sink (and a log file on it) is attached. -/
structure JobSt where
  tries : Nat
  maxRetries : Nat
  tasks : Tasks
  sshOpen : Bool
  sftpOpen : Bool
  outSet : Bool
  fileSet : Bool
deriving DecidableEq, Repr

/-- Outcomes of the external calls made during one Start attempt: context
    cancellation, ssh liveness probe, dial, log-file open, the sftp liveness
    probe and session open at the upload and download steps, and the
    upload/exec/download bodies. -/
structure Attempt where
  ctxCanceled : Bool
  sshAlive : Bool
  dialErr : Option GoErr
  logOpenOk : Bool
  sftpAliveAtUpload : Bool
  sftpOpenErrAtUpload : Option GoErr
  uploadErr : Option GoErr
  execErr : Option GoErr
  sftpAliveAtDownload : Bool
  sftpOpenErrAtDownload : Option GoErr
  downloadErr : Option GoErr
deriving DecidableEq, Repr

/-- The exec and download sections of Start (part_003 lines 118-133).
    Returns (returned error, final value of the `err` variable, state).
    `j.Exec`'s and `j.Download`'s results are assigned to the outer `err`
    variable, so they overwrite its previous value. -/
def startTail (a : Attempt) (j : JobSt) (errVar : Option GoErr) :
    Option GoErr × Option GoErr × JobSt :=
  let errVar2 :=
    if tasksHas j.tasks ExecTask then
      match a.execErr with
      | some e => some (.wrap errExecution e)
      | none => none
    else errVar
  if tasksHas j.tasks DownloadTask then
    if !(j.sftpOpen && a.sftpAliveAtDownload) then
      match a.sftpOpenErrAtDownload with
      | some e => (some (.wrap errFileTransfer e), some e, { j with sftpOpen := false })
      | none =>
          let j2 := { j with sftpOpen := true }
          match a.downloadErr with
          | some e =>
              (some (.wrap errFileTransfer e), some (.wrap errFileTransfer e), j2)
          | none => (none, none, j2)
    else
      match a.downloadErr with
      | some e => (some (.wrap errFileTransfer e), some (.wrap errFileTransfer e), j)
      | none => (none, none, j)
  else (errVar2, errVar2, j)

/-- The upload section of Start (part_003 lines 106-117).  The failed-upload
    branch returns a wrapped error but - because the source declares a
    shadowed `err` with `:=` - leaves the outer `err` variable untouched. -/
def startUpload (a : Attempt) (j : JobSt) (errVar : Option GoErr) :
    Option GoErr × Option GoErr × JobSt :=
  if tasksHas j.tasks UploadTask then
    if !(j.sftpOpen && a.sftpAliveAtUpload) then
      match a.sftpOpenErrAtUpload with
      | some e => (some (.wrap errFileTransfer e), some e, { j with sftpOpen := false })
      | none =>
          let j2 := { j with sftpOpen := true }
          match a.uploadErr with
          | some e => (some (.wrap errFileTransfer e), none, j2)
          | none =>
              startTail a { j2 with tasks := tasksUnset j2.tasks UploadTask } none
    else
      match a.uploadErr with
      | some e => (some (.wrap errFileTransfer e), errVar, j)
      | none => startTail a { j with tasks := tasksUnset j.tasks UploadTask } errVar
  else startTail a j errVar

/-- The dial section of Start (part_003 lines 101-105): dial when the ssh
    handle is absent or its liveness probe fails. -/
def startBody (a : Attempt) (j : JobSt) : Option GoErr × Option GoErr × JobSt :=
  if !(j.sshOpen && a.sshAlive) then
    match a.dialErr with
    | some e => (some (.wrap errConnection e), some e, { j with sshOpen := false })
    | none => startUpload a { j with sshOpen := true } none
  else startUpload a j none

/-- Job.Start (part_003 lines 68-136): return early when the task set is
    done or the context is cancelled; otherwise increment tries, attach a
    fresh output sink (and log file when KeepHistory is set and the open
    succeeds), run the body, and apply the deferred retire decision: if the
    `err` variable is nil or tries exceeds maxRetries, force the task set to
    empty. -/
def jobStart (a : Attempt) (j : JobSt) : Option GoErr × JobSt :=
  if tasksDone j.tasks then (none, j)
  else if a.ctxCanceled then (some .ctxCanceled, j)
  else
    let j1 := { j with
      tries := j.tries + 1,
      outSet := true,
      fileSet := tasksHas j.tasks KeepHistoryTask && a.logOpenOk }
    match startBody a j1 with
    | (ret, errVar, j2) =>
        if errVar = none || j2.maxRetries < j2.tries then
          (ret, { j2 with tasks := 0 })
        else (ret, j2)

/-! ## Upload over sftp (upload, uploadFile, makeExec, randHex - part_008) -/

/-- A regular file on the remote (or local) side: permission bits and
    content. -/
structure RFile where
  mode : Nat
  content : GoStr
deriving DecidableEq, Repr

/-- The remote file system seen through the sftp client, as a flat
    association from path strings to regular files (remote directories are
    not tracked: MkdirAll on the remote side is modelled as a no-op). -/
abbrev RFS := List (GoStr × RFile)

def fsLookup (fs : RFS) (k : GoStr) : Option RFile := alLookup fs k

def fsSet (fs : RFS) (k : GoStr) (v : RFile) : RFS := alSet fs k v

def fsRemove (fs : RFS) (k : GoStr) : RFS := alRemove fs k

def fsChmod (fs : RFS) (k : GoStr) (m : Nat) : RFS :=
  match fsLookup fs k with
  | none => fs
  | some v => fsSet fs k { v with mode := m }

def fsWrite (fs : RFS) (k : GoStr) (c : GoStr) : RFS :=
  match fsLookup fs k with
  | none => fs
  | some v => fsSet fs k { v with content := c }

def fsRename (fs : RFS) (src dst : GoStr) : RFS :=
  match fsLookup fs src with
  | none => fs
  | some v => fsSet (fsRemove fs src) dst v

/-- One lowercase hex digit byte. -/
def hexDigitB (d : Nat) : Nat := if d < 10 then 48 + d else 87 + d

/-- randHex (part_008): read n random bytes and hex-encode them.  The random
    source is an explicit byte stream. -/
def randHex (src : Nat → Nat) (n : Nat) : GoStr :=
  ((List.range n).map
    (fun i => [hexDigitB (src i % 256 / 16), hexDigitB (src i % 256 % 16)])).flatten

/-- A lowercase hexadecimal digit byte (0-9 or a-f). -/
def isHexDigitB (c : Nat) : Bool :=
  (48 ≤ c && c ≤ 57) || (97 ≤ c && c ≤ 102)

/-- `filepath.Base`: the last slash-separated component (inputs here are
    clean non-empty paths). -/
def goBase (s : GoStr) : GoStr := ((splitAllB 47 s).getLast?).getD s

/-- `path.Join(dir, name)` for clean inputs; an empty dir yields name. -/
def pathJoin (dir name : GoStr) : GoStr :=
  if dir = [] then name else dir ++ [47] ++ name

/-- The temporary remote name used by uploadFile:
    `fmt.Sprintf("%s_%s.tmp", filename, randHex(32))`. -/
def uploadTempName (filename : GoStr) (src : Nat → Nat) : GoStr :=
  filename ++ [95] ++ randHex src 32 ++ strBytes ".tmp"

/-- Failure injection for the seven effectful steps of uploadFile. -/
structure UploadEnv where
  localStatErr : Bool
  createErr : Bool
  chmodErr : Bool
  copyErr : Bool
  closeErr : Bool
  renameErr : Bool
deriving DecidableEq, Repr

/-- The typed step tags carried by uploadFile's errors. -/
inductive UpStep where
  | openLocal
  | statLocal
  | createTemp
  | chmodTemp
  | copyTemp
  | closeTemp
  | renameTemp
deriving DecidableEq, Repr

/-- uploadFile (part_008 lines 42-84): open and stat the local file, create
    a remote temp named `<final>_<hex>.tmp`, chmod it to the local
    permissions, stream the bytes, close, and posix-rename onto the final
    name.  On any failure after the create, the deferred cleanup removes the
    temp file; the reported error tags the failing step. -/
def uploadFile (env : UploadEnv) (localFile : Option RFile) (src : Nat → Nat)
    (dir file : GoStr) (fs : RFS) : Option UpStep × RFS :=
  match localFile with
  | none => (some .openLocal, fs)
  | some lf =>
      if env.localStatErr then (some .statLocal, fs)
      else
        let filename := pathJoin dir (goBase file)
        let tempname := uploadTempName filename src
        if env.createErr then (some .createTemp, fs)
        else
          let fs1 := fsSet fs tempname ⟨0o666, []⟩
          if env.chmodErr then (some .chmodTemp, fsRemove fs1 tempname)
          else
            let fs2 := fsChmod fs1 tempname (lf.mode.land 0o777)
            if env.copyErr then (some .copyTemp, fsRemove fs2 tempname)
            else
              let fs3 := fsWrite fs2 tempname lf.content
              if env.closeErr then (some .closeTemp, fsRemove fs3 tempname)
              else if env.renameErr then (some .renameTemp, fsRemove fs3 tempname)
              else (none, fsRename fs3 tempname filename)

/-- upload (part_008 lines 18-40): create the remote dir (a no-op in the
    flat model) and upload each file in order, stopping at the first
    error. -/
def uploadMany (env : UploadEnv) (locals : GoStr → Option RFile) (src : Nat → Nat)
    (dir : GoStr) (files : List GoStr) (fs : RFS) : Option UpStep × RFS :=
  match files with
  | [] => (none, fs)
  | f :: rest =>
      match uploadFile env (locals f) src dir f fs with
      | (some e, fs1) => (some e, fs1)
      | (none, fs1) => uploadMany env locals src dir rest fs1

/-- makeExec (part_008 lines 87-103): stat the remote file and chmod it to
    its permission bits with 0111 added.  Returns false when the stat
    fails. -/
def makeExec (filename : GoStr) (fs : RFS) : Bool × RFS :=
  match fsLookup fs filename with
  | none => (false, fs)
  | some v => (true, fsChmod fs filename ((v.mode.land 0o777).lor 0o111))

/-- Job.Upload (part_003 lines 139-152): upload all files, then - whenever
    there is at least one file, with no test of the Exec task - make the
    first uploaded file executable. -/
def jobUpload (env : UploadEnv) (locals : GoStr → Option RFile) (src : Nat → Nat)
    (path : GoStr) (files : List GoStr) (fs : RFS) : Bool × RFS :=
  match uploadMany env locals src path files fs with
  | (some _, fs1) => (false, fs1)
  | (none, fs1) =>
      match files with
      | [] => (true, fs1)
      | f0 :: _ =>
          let filename := pathJoin path (goBase f0)
          makeExec filename fs1

/-! ## Download over sftp (download and helpers - part_008) -/

/-- A node of a file system as seen by Lstat: regular file, directory, or
    symlink (not followed). -/
inductive FsKind where
  | fileK (mode : Nat) (content : GoStr)
  | dirK (mode : Nat)
  | linkK (target : GoStr)
deriving DecidableEq, Repr

/-- A path, as slash-free segments. -/
abbrev RPath := List GoStr

/-- The local file system download writes into. -/
abbrev LFS := List (RPath × FsKind)

def lfsLookup (l : LFS) (k : RPath) : Option FsKind := alLookup l k

def lfsSet (l : LFS) (k : RPath) (v : FsKind) : LFS := alSet l k v

def lfsRemove (l : LFS) (k : RPath) : LFS := alRemove l k

/-- The fixed remote state: the Lstat view, the walker's pre-order entry
    sequence for a root, and the glob expansion of a pattern. -/
structure Remote where
  entries : List (RPath × FsKind)
  walkOrder : RPath → List (RPath × FsKind)
  globMatches : GoStr → List RPath

def remoteLstat (rem : Remote) (p : RPath) : Option FsKind :=
  alLookup rem.entries p

def lfsChmod (l : LFS) (k : RPath) (m : Nat) : LFS :=
  match lfsLookup l k with
  | some (.fileK _ c) => lfsSet l k (.fileK m c)
  | some (.dirK _) => lfsSet l k (.dirK m)
  | _ => l

def lfsWrite (l : LFS) (k : RPath) (c : GoStr) : LFS :=
  match lfsLookup l k with
  | some (.fileK m _) => lfsSet l k (.fileK m c)
  | _ => l

def lfsRename (l : LFS) (src dst : RPath) : LFS :=
  match lfsLookup l src with
  | none => l
  | some v => lfsSet (lfsRemove l src) dst v

/-- The non-empty prefixes of a path, shortest first: the directories
    `os.MkdirAll` considers. -/
def prefixesOf (p : RPath) : List RPath :=
  (List.range p.length).map (fun i => p.take (i + 1))

/-- `os.MkdirAll(p, perm)`: ensure every prefix is a directory, creating the
    missing ones with perm; fail (none) when an existing entry is not a
    directory. -/
def mkdirAllAux (l : LFS) (perm : Nat) : List RPath → Option LFS
  | [] => some l
  | q :: rest =>
      match lfsLookup l q with
      | some (.dirK _) => mkdirAllAux l perm rest
      | some _ => none
      | none => mkdirAllAux (lfsSet l q (.dirK perm)) perm rest

def mkdirAll (l : LFS) (p : RPath) (perm : Nat) : Option LFS :=
  mkdirAllAux l perm (prefixesOf p)

/-- The local temp path used by downloadFile: the target path with
    `_<hex>.tmp` appended to its last segment. -/
def tempPathOf (p : RPath) (hex : GoStr) : RPath :=
  match p.getLast? with
  | none => [[95] ++ hex ++ strBytes ".tmp"]
  | some last => p.dropLast ++ [last ++ [95] ++ hex ++ strBytes ".tmp"]

/-- The typed step tags of the download helpers. -/
inductive DStep where
  | lstatStep
  | readlinkStep
  | mkdirStep
  | openStep
  | createStep
  | globStep
deriving DecidableEq, Repr

/-- downloadFile (part_008 lines 238-289): skip when the local target
    already exists (lstat, any kind); otherwise open and stat the remote
    file, create the parent directory with 0755, create a local temp, chmod
    it to the remote permissions, stream, close, and rename onto the
    target. -/
def downloadFile (rem : Remote) (hex : GoStr) (localDir rp : RPath) (l : LFS) :
    Option DStep × LFS :=
  let localPath := localDir ++ rp
  match lfsLookup l localPath with
  | some _ => (none, l)
  | none =>
      match remoteLstat rem rp with
      | some (.fileK mode content) =>
          match mkdirAll l localPath.dropLast 0o755 with
          | none => (some .mkdirStep, l)
          | some l1 =>
              let temp := tempPathOf localPath hex
              match lfsLookup l1 temp with
              | some (.dirK _) => (some .createStep, l1)
              | _ =>
                  let l2 := lfsSet l1 temp (.fileK 0o666 [])
                  let l3 := lfsChmod l2 temp (mode.land 0o777)
                  let l4 := lfsWrite l3 temp content
                  (none, lfsRename l4 temp localPath)
      | _ => (some .openStep, l)

/-- downloadSymlink (part_008 lines 213-235): skip when the local path
    already exists; otherwise read the remote link target, create the parent
    directory with 0755, and create the local symlink with the same
    target. -/
def downloadSymlink (rem : Remote) (localDir rp : RPath) (l : LFS) :
    Option DStep × LFS :=
  let localPath := localDir ++ rp
  match lfsLookup l localPath with
  | some _ => (none, l)
  | none =>
      match remoteLstat rem rp with
      | some (.linkK target) =>
          match mkdirAll l localPath.dropLast 0o755 with
          | none => (some .mkdirStep, l)
          | some l1 => (none, lfsSet l1 localPath (.linkK target))
      | _ => (some .readlinkStep, l)

/-- Is q a strict descendant of p (used by the walker's SkipDir). -/
def strictUnder (p q : RPath) : Bool := p.isPrefixOf q && q != p

/-- downloadDir's walker loop (part_008 lines 177-210): symlinks are
    recreated and their subtree skipped; directories are created locally
    with the remote permissions; regular files are fetched. -/
def walkLoop (rem : Remote) (hex : GoStr) (localDir : RPath) :
    List (RPath × FsKind) → LFS → Option DStep × LFS
  | [], l => (none, l)
  | (p, info) :: rest, l =>
      match info with
      | .linkK _ =>
          match downloadSymlink rem localDir p l with
          | (some e, l1) => (some e, l1)
          | (none, l1) =>
              walkLoop rem hex localDir (rest.filter (fun e => !strictUnder p e.1)) l1
      | .dirK mode =>
          match mkdirAll l (localDir ++ p) (mode.land 0o777) with
          | none => (some .mkdirStep, l)
          | some l1 => walkLoop rem hex localDir rest l1
      | .fileK _ _ =>
          match downloadFile rem hex localDir p l with
          | (some e, l1) => (some e, l1)
          | (none, l1) => walkLoop rem hex localDir rest l1
termination_by entries => entries.length
decreasing_by
  all_goals simp
  exact Nat.lt_succ_of_le (List.length_filter_le _ _)

/-- downloadDir (part_008 lines 177-210). -/
def downloadDir (rem : Remote) (hex : GoStr) (localDir rp : RPath) (l : LFS) :
    Option DStep × LFS :=
  walkLoop rem hex localDir (rem.walkOrder rp) l

/-- downloadPath (part_008 lines 159-174): dispatch on the remote Lstat. -/
def downloadPath (rem : Remote) (hex : GoStr) (localDir rp : RPath) (l : LFS) :
    Option DStep × LFS :=
  match remoteLstat rem rp with
  | none => (some .lstatStep, l)
  | some (.linkK _) => downloadSymlink rem localDir rp l
  | some (.dirK _) => downloadDir rem hex localDir rp l
  | some (.fileK _ _) => downloadFile rem hex localDir rp l

/-- The per-pattern match loop of download (part_008 lines 144-152). -/
def downloadMatches (rem : Remote) (hex : GoStr) (localDir : RPath) :
    List RPath → LFS → Option DStep × LFS
  | [], l => (none, l)
  | m :: rest, l =>
      match downloadPath rem hex localDir m l with
      | (some e, l1) => (some e, l1)
      | (none, l1) => downloadMatches rem hex localDir rest l1

/-- download (part_008 lines 129-156): glob each pattern and download each
    match, stopping at the first error. -/
def download (rem : Remote) (hex : GoStr) (localDir : RPath) :
    List GoStr → LFS → Option DStep × LFS
  | [], l => (none, l)
  | pat :: rest, l =>
      match downloadMatches rem hex localDir (rem.globMatches pat) l with
      | (some e, l1) => (some e, l1)
      | (none, l1) => download rem hex localDir rest l1

/-! ### The local paths a download run establishes

To state idempotence we enumerate, purely from the fixed remote state, the
local facts a successful run leaves behind: each fetched file or recreated
symlink target exists, and each directory the run creates (with all its
prefixes) is a directory.  The enumeration mirrors the recursion of the
download functions, including the walker's SkipDir filtering. -/

/-- A local fact established by a download run. -/
inductive PlanFact where
  | existsAt (q : RPath)
  | dirAt (q : RPath)
deriving DecidableEq, Repr

def factPath : PlanFact → RPath
  | .existsAt q => q
  | .dirAt q => q

def factHolds (l : LFS) : PlanFact → Bool
  | .existsAt q => (lfsLookup l q).isSome
  | .dirAt q =>
      match lfsLookup l q with
      | some (.dirK _) => true
      | _ => false

def planWalk (localDir : RPath) : List (RPath × FsKind) → List PlanFact
  | [] => []
  | (p, info) :: rest =>
      match info with
      | .linkK _ =>
          .existsAt (localDir ++ p)
            :: planWalk localDir (rest.filter (fun e => !strictUnder p e.1))
      | .dirK _ =>
          (prefixesOf (localDir ++ p)).map .dirAt ++ planWalk localDir rest
      | .fileK _ _ => .existsAt (localDir ++ p) :: planWalk localDir rest
termination_by entries => entries.length
decreasing_by
  all_goals simp
  exact Nat.lt_succ_of_le (List.length_filter_le _ _)

def planPath (rem : Remote) (localDir rp : RPath) : List PlanFact :=
  match remoteLstat rem rp with
  | none => []
  | some (.linkK _) => [.existsAt (localDir ++ rp)]
  | some (.dirK _) => planWalk localDir (rem.walkOrder rp)
  | some (.fileK _ _) => [.existsAt (localDir ++ rp)]

def planMatches (rem : Remote) (localDir : RPath) (ms : List RPath) : List PlanFact :=
  (ms.map (planPath rem localDir)).flatten

def planDownload (rem : Remote) (localDir : RPath) (pats : List GoStr) : List PlanFact :=
  (pats.map (fun pat => planMatches rem localDir (rem.globMatches pat))).flatten

/-- Does the last segment of p end in `_<hex>.tmp` - that is, could p be the
    temp name of some download? -/
def isTempPath (hex : GoStr) (p : RPath) : Bool :=
  match p.getLast? with
  | none => false
  | some s => ([95] ++ hex ++ strBytes ".tmp").isSuffixOf s

/-- Freshness of the run's temp names: no path the run is about to establish
    looks like a temp name.  This is the derandomization side condition for
    the random hex tag. -/
def freshPlan (hex : GoStr) (fs : List PlanFact) : Bool :=
  fs.all (fun f => !isTempPath hex (factPath f))

/-- Concrete fixture for the download idempotence instance: a remote with
    one regular file and one symlink, globbed by a single pattern. -/
def c6Rem : Remote :=
  ⟨[([[111]], .fileK 420 [104, 105]), ([[115]], .linkK [116])],
   fun _ => [], fun _ => [[[111]], [[115]]]⟩

def c6Hex : GoStr := [97, 98]

def c6Pats : List GoStr := [[42]]

/-- A local tree that already holds a conflicting entry at the file's
    target path, to exercise the skip-existing branch. -/
def c6L0 : LFS := [([[111]], .fileK 7 [9])]

def c6L1 : LFS := (download c6Rem c6Hex [] c6Pats c6L0).2

/-! # Theorems -/

/-! ## Association-list lemmas -/

section AssocListLemmas

variable {κ ν : Type} [DecidableEq κ]

theorem alLookup_alSet_self (l : List (κ × ν)) (k : κ) (v : ν) :
    alLookup (alSet l k v) k = some v := by
  induction l with
  | nil => simp [alSet, alLookup]
  | cons e rest ih =>
      obtain ⟨k2, v2⟩ := e
      by_cases hk : k2 = k
      · simp [alSet, hk, alLookup]
      · simp [alSet, hk, alLookup, ih]

theorem alLookup_alSet_ne (l : List (κ × ν)) {k k2 : κ} (v : ν) (h : k2 ≠ k) :
    alLookup (alSet l k v) k2 = alLookup l k2 := by
  induction l with
  | nil => simp [alSet, alLookup, Ne.symm h]
  | cons e rest ih =>
      obtain ⟨k3, v3⟩ := e
      by_cases hk : k3 = k
      · subst hk
        have hne : ¬(k3 = k2) := fun hh => h hh.symm
        simp [alSet, alLookup, hne]
      · simp [alSet, hk, alLookup, ih]

theorem alLookup_alRemove_self (l : List (κ × ν)) (k : κ) :
    alLookup (alRemove l k) k = none := by
  induction l with
  | nil => simp [alRemove, alLookup]
  | cons e rest ih =>
      obtain ⟨k2, v2⟩ := e
      by_cases hk : k2 = k
      · simpa [alRemove, hk] using ih
      · simpa [alRemove, alLookup, hk] using ih

theorem alLookup_alRemove_ne (l : List (κ × ν)) {k k2 : κ} (h : k2 ≠ k) :
    alLookup (alRemove l k) k2 = alLookup l k2 := by
  induction l with
  | nil => simp [alRemove, alLookup]
  | cons e rest ih =>
      obtain ⟨k3, v3⟩ := e
      by_cases hk : k3 = k
      · subst hk
        have hne : ¬(k3 = k2) := fun hh => h hh.symm
        simpa [alRemove, alLookup, hne] using ih
      · by_cases hk2 : k3 = k2
        · subst hk2
          simp [alRemove, alLookup, hk]
        · simpa [alRemove, alLookup, hk, hk2] using ih

end AssocListLemmas

/-- A list never equals itself extended by a non-empty suffix. -/
theorem ne_append_of_ne_nil {α : Type} {s t : List α} (h : t ≠ []) :
    s ≠ s ++ t := by
  intro he
  have hl := congrArg List.length he
  rw [List.length_append] at hl
  have ht : t.length = 0 := by omega
  exact h (List.length_eq_zero.mp ht)

/-! ## C10: the (n, err) returned by Output.Write -/

/-- C10: for every Output and input p, the pair returned by Write reflects
    only the attached log file's write; when no file is attached Write
    returns (0, nil) no matter how many bytes were buffered or emitted. -/
theorem claim_C10 (st : OutputSt) (p : GoStr) (h : st.file = none) :
    (outputWrite st p).1 = (0, none) := by
  simp [outputWrite, h]

/-- C10 witness: a two-byte write with no file attached returns (0, nil),
    a count strictly below the input length. -/
theorem claim_C10_witness :
    (⟨strBytes "h", [], [], none⟩ : OutputSt).file = none ∧
    (outputWrite ⟨strBytes "h", [], [], none⟩ (strBytes "ab")).1 = (0, none) ∧
    0 < (strBytes "ab").length :=
  ⟨rfl, claim_C10 ⟨strBytes "h", [], [], none⟩ (strBytes "ab") rfl, by decide⟩

/-! ## C7: output line framing -/

theorem breakNL_none_no_nl : ∀ {p : GoStr}, breakNL p = none → ∀ c ∈ p, ¬c = 10 := by
  intro p
  induction p with
  | nil => intro _ c hc; simp at hc
  | cons c rest ih =>
      intro h c2 hc2
      by_cases hc : c = 10
      · simp [breakNL, hc] at h
      · simp [breakNL, hc] at h
        rcases List.mem_cons.mp hc2 with hc2 | hc2
        · subst hc2; exact hc
        · exact ih h c2 hc2

theorem breakNL_some_no_nl : ∀ {p b r : GoStr},
    breakNL p = some (b, r) → ∀ c ∈ b, ¬c = 10 := by
  intro p
  induction p with
  | nil => intro b r h; simp [breakNL] at h
  | cons c rest ih =>
      intro b r h
      by_cases hc : c = 10
      · simp [breakNL, hc] at h
        obtain ⟨hb, hr⟩ := h
        subst hb
        intro c2 hc2
        simp at hc2
      · simp [breakNL, hc] at h
        obtain ⟨b1, hbr, hb⟩ := h
        subst hb
        intro c2 hc2
        rcases List.mem_cons.mp hc2 with hc2 | hc2
        · subst hc2; exact hc
        · exact ih hbr c2 hc2

theorem framedFrom_no_nl {b : GoStr} (hb : ∀ c ∈ b, ¬c = 10) :
    ∀ (pre carry r : GoStr),
      framedFrom pre carry (b ++ 10 :: r) =
        pre ++ [58, 9] ++ (carry ++ b) ++ [10] ++ framedFrom pre [] r := by
  induction b with
  | nil => intro pre carry r; simp [framedFrom]
  | cons c bs ih =>
      intro pre carry r
      have hc : ¬c = 10 := hb c (by simp)
      have hbs : ∀ c2 ∈ bs, ¬c2 = 10 := fun c2 h2 => hb c2 (by simp [h2])
      simp only [List.cons_append, framedFrom, if_neg hc, List.append_eq]
      rw [ih hbs]
      simp

theorem trailingFrom_no_nl {b : GoStr} (hb : ∀ c ∈ b, ¬c = 10) :
    ∀ (carry r : GoStr), trailingFrom carry (b ++ 10 :: r) = trailingFrom [] r := by
  induction b with
  | nil => intro carry r; simp [trailingFrom]
  | cons c bs ih =>
      intro carry r
      have hc : ¬c = 10 := hb c (by simp)
      have hbs : ∀ c2 ∈ bs, ¬c2 = 10 := fun c2 h2 => hb c2 (by simp [h2])
      simp only [List.cons_append, trailingFrom, if_neg hc, List.append_eq]
      exact ih hbs (carry ++ [c]) r

theorem framedFrom_all_no_nl {p : GoStr} (hp : ∀ c ∈ p, ¬c = 10) :
    ∀ (pre carry : GoStr), framedFrom pre carry p = [] := by
  induction p with
  | nil => intro pre carry; simp [framedFrom]
  | cons c ps ih =>
      intro pre carry
      have hc : ¬c = 10 := hp c (by simp)
      have hps : ∀ c2 ∈ ps, ¬c2 = 10 := fun c2 h2 => hp c2 (by simp [h2])
      simp only [framedFrom, if_neg hc]
      exact ih hps pre (carry ++ [c])

theorem trailingFrom_all_no_nl {p : GoStr} (hp : ∀ c ∈ p, ¬c = 10) :
    ∀ (carry : GoStr), trailingFrom carry p = carry ++ p := by
  induction p with
  | nil => intro carry; simp [trailingFrom]
  | cons c ps ih =>
      intro carry
      have hc : ¬c = 10 := hp c (by simp)
      have hps : ∀ c2 ∈ ps, ¬c2 = 10 := fun c2 h2 => hp c2 (by simp [h2])
      simp only [trailingFrom, if_neg hc]
      rw [ih hps (carry ++ [c])]
      simp

/-- bufferOut emits exactly the framed complete lines and keeps the
    trailing partial line in the buffer. -/
theorem bufferOut_spec (st : OutputSt) (p : GoStr) :
    bufferOut st p =
      { st with
        stdout := st.stdout ++ framedFrom st.pre st.buf p,
        buf := trailingFrom st.buf p } := by
  induction st, p using bufferOut.induct with
  | case1 st p hnone =>
      have hstep : bufferOut st p = { st with buf := st.buf ++ p } := by
        rw [bufferOut.eq_def, hnone]
      rw [hstep]
      have hp := breakNL_none_no_nl hnone
      rw [framedFrom_all_no_nl hp, trailingFrom_all_no_nl hp]
      simp
  | case2 st p b r hsome ih =>
      have hstep : bufferOut st p = bufferOut
          { st with
            stdout := st.stdout ++ st.pre ++ [58, 9] ++ st.buf ++ b ++ [10],
            buf := [] } r := by
        rw [bufferOut.eq_def, hsome]
      rw [hstep, ih]
      have hshape := breakNL_some_shape hsome
      have hb := breakNL_some_no_nl hsome
      subst hshape
      rw [framedFrom_no_nl hb, trailingFrom_no_nl hb]
      simp

theorem framedFrom_append (pre : GoStr) :
    ∀ (s t carry : GoStr),
      framedFrom pre carry (s ++ t) =
        framedFrom pre carry s ++ framedFrom pre (trailingFrom carry s) t := by
  intro s
  induction s with
  | nil => intro t carry; simp [framedFrom, trailingFrom]
  | cons c ss ih =>
      intro t carry
      by_cases hc : c = 10
      · subst hc
        simp only [List.cons_append, framedFrom, trailingFrom, if_true,
          eq_self_iff_true, List.append_eq]
        rw [ih]
        simp
      · simp only [List.cons_append, framedFrom, trailingFrom, if_neg hc,
          List.append_eq]
        exact ih t (carry ++ [c])

theorem trailingFrom_append :
    ∀ (s t carry : GoStr),
      trailingFrom carry (s ++ t) = trailingFrom (trailingFrom carry s) t := by
  intro s
  induction s with
  | nil => intro t carry; simp [trailingFrom]
  | cons c ss ih =>
      intro t carry
      by_cases hc : c = 10
      · subst hc
        simp only [List.cons_append, trailingFrom, if_true, eq_self_iff_true,
          List.append_eq]
        exact ih t []
      · simp only [List.cons_append, trailingFrom, if_neg hc, List.append_eq]
        exact ih t (carry ++ [c])

/-- The accumulated effect of a sequence of Write calls. -/
theorem outputWriteAll_spec :
    ∀ (ps : List GoStr) (st : OutputSt),
      outputWriteAll st ps =
        { st with
          stdout := st.stdout ++ framedFrom st.pre st.buf ps.flatten,
          buf := trailingFrom st.buf ps.flatten,
          file := st.file.map (· ++ ps.flatten) } := by
  intro ps
  induction ps with
  | nil =>
      intro st
      simp [outputWriteAll, framedFrom, trailingFrom]
  | cons p ps ih =>
      intro st
      have hstep : outputWriteAll st (p :: ps) =
          outputWriteAll ((outputWrite st p).2) ps := by
        simp [outputWriteAll]
      rw [hstep]
      cases hf : st.file with
      | none =>
          rw [show (outputWrite st p).2 = bufferOut st p by simp [outputWrite, hf]]
          rw [bufferOut_spec, ih]
          simp [hf, List.flatten, framedFrom_append, trailingFrom_append]
      | some f =>
          rw [show (outputWrite st p).2 =
                bufferOut { st with file := some (f ++ p) } p by
              simp [outputWrite, hf]]
          rw [bufferOut_spec, ih]
          simp [hf, List.flatten, framedFrom_append, trailingFrom_append]

/-- C7: after any sequence of Write calls followed by Flush, the terminal
    receives exactly the newline-delimited lines of the concatenated input,
    each prefixed with `<host>:\t`, the trailing partial line (if any) being
    emitted by Flush as if a newline arrived; the attached log file receives
    the input bytes verbatim. -/
theorem claim_C7 (pre : GoStr) (file0 : Option GoStr) (ps : List GoStr) :
    outputFlush (outputWriteAll ⟨pre, [], [], file0⟩ ps) =
      ⟨pre,
       framedFrom pre [] ps.flatten ++
         (if trailingFrom [] ps.flatten = [] then []
          else pre ++ [58, 9] ++ trailingFrom [] ps.flatten ++ [10]),
       [],
       file0.map (· ++ ps.flatten)⟩ := by
  rw [outputWriteAll_spec]
  by_cases ht : trailingFrom [] ps.flatten = []
  · simp [outputFlush, ht]
  · have hlen : 0 < (trailingFrom [] ps.flatten).length :=
      List.length_pos.mpr ht
    simp only [outputFlush, hlen, if_pos, if_neg ht]
    rw [bufferOut_spec]
    have hnl : ∀ c ∈ ([10] : GoStr), c = 10 := by simp
    simp [framedFrom, trailingFrom]

/-! ## C3: the shape of the remote temp-file name -/

theorem randHex_length (src : Nat → Nat) (n : Nat) :
    (randHex src n).length = 2 * n := by
  induction n with
  | zero => simp [randHex]
  | succ m ih =>
      rw [randHex, List.range_succ]
      rw [randHex] at ih
      simp only [List.map_append, List.flatten_append] at *
      simp [ih]
      omega

theorem randHex_all_hex (src : Nat → Nat) (n : Nat) :
    ∀ c ∈ randHex src n, isHexDigitB c = true := by
  intro c hc
  rw [randHex] at hc
  rw [List.mem_flatten] at hc
  obtain ⟨l, hl, hcl⟩ := hc
  rw [List.mem_map] at hl
  obtain ⟨i, _, hli⟩ := hl
  subst hli
  have hx : ∀ d : Nat, d < 16 → isHexDigitB (hexDigitB d) = true := by
    intro d hd
    interval_cases d <;> decide
  rcases List.mem_cons.mp hcl with h1 | h1
  · subst h1
    exact hx _ (by omega)
  · rcases List.mem_cons.mp h1 with h2 | h2
    · subst h2
      exact hx _ (by omega)
    · simp at h2

/-- C3 counterexample: at dir `""`, local file `"a"` and the all-zero random
    source, the created temp name admits no decomposition
    `<final>_<r>.tmp` with `r` of length 32 - its random part has 64
    characters. -/
theorem counterexample_C3 :
    ¬ ∃ r : GoStr,
        uploadTempName (pathJoin [] (goBase (strBytes "a"))) (fun _ => 0) =
          pathJoin [] (goBase (strBytes "a")) ++ [95] ++ r ++ strBytes ".tmp" ∧
        r.length = 32 := by
  rintro ⟨r, heq, hlen⟩
  have hl := congrArg List.length heq
  simp [uploadTempName, randHex_length] at hl
  omega

/-- C3 amended: the remote temp file is named exactly the final name,
    an underscore, a random string of 64 (not 32) lowercase hexadecimal
    characters - randHex hex-encodes 32 random bytes - and the suffix
    `.tmp`. -/
theorem claim_C3 (src : Nat → Nat) (filename : GoStr) :
    uploadTempName filename src =
      filename ++ [95] ++ randHex src 32 ++ strBytes ".tmp" ∧
    (randHex src 32).length = 64 ∧
    ∀ c ∈ randHex src 32, isHexDigitB c = true :=
  ⟨rfl, randHex_length src 32, randHex_all_hex src 32⟩

/-! ## C5: failed uploads clean up their temp file and never create the
    final name -/

theorem fsLookup_set_self (fs : RFS) (k : GoStr) (v : RFile) :
    fsLookup (fsSet fs k v) k = some v := alLookup_alSet_self fs k v

theorem fsLookup_set_ne (fs : RFS) {k k2 : GoStr} (v : RFile) (h : k2 ≠ k) :
    fsLookup (fsSet fs k v) k2 = fsLookup fs k2 := alLookup_alSet_ne fs v h

theorem fsLookup_remove_self (fs : RFS) (k : GoStr) :
    fsLookup (fsRemove fs k) k = none := alLookup_alRemove_self fs k

theorem fsLookup_remove_ne (fs : RFS) {k k2 : GoStr} (h : k2 ≠ k) :
    fsLookup (fsRemove fs k) k2 = fsLookup fs k2 := alLookup_alRemove_ne fs h

theorem fsChmod_set (fs : RFS) (k : GoStr) (v : RFile) (m : Nat) :
    fsChmod (fsSet fs k v) k m = fsSet (fsSet fs k v) k ⟨m, v.content⟩ := by
  simp [fsChmod, fsLookup_set_self]

theorem fsWrite_set (fs : RFS) (k : GoStr) (v : RFile) (c : GoStr) :
    fsWrite (fsSet fs k v) k c = fsSet (fsSet fs k v) k ⟨v.mode, c⟩ := by
  simp [fsWrite, fsLookup_set_self]

theorem filename_ne_temp (filename : GoStr) (src : Nat → Nat) :
    filename ≠ uploadTempName filename src := by
  have heq : uploadTempName filename src =
      filename ++ ([95] ++ randHex src 32 ++ strBytes ".tmp") := by
    simp [uploadTempName]
  rw [heq]
  exact ne_append_of_ne_nil (by simp)

/-- C5: whenever uploadFile fails, the reported error carries the typed step
    tag; a failure before the remote create leaves the remote untouched, a
    failure after it leaves no temp file behind; and in every failure the
    final name's entry is exactly what it was before the call - the final
    path is only ever produced by the posix-rename that ends a successful
    call. -/
theorem claim_C5 (env : UploadEnv) (lf : Option RFile) (src : Nat → Nat)
    (dir file : GoStr) (fs : RFS) (step : UpStep) (fs2 : RFS)
    (h : uploadFile env lf src dir file fs = (some step, fs2)) :
    fsLookup fs2 (pathJoin dir (goBase file)) =
      fsLookup fs (pathJoin dir (goBase file)) ∧
    ((step = .openLocal ∨ step = .statLocal ∨ step = .createTemp) → fs2 = fs) ∧
    ((step = .chmodTemp ∨ step = .copyTemp ∨ step = .closeTemp ∨
        step = .renameTemp) →
      fsLookup fs2 (uploadTempName (pathJoin dir (goBase file)) src) = none) := by
  have hne : pathJoin dir (goBase file) ≠
      uploadTempName (pathJoin dir (goBase file)) src :=
    filename_ne_temp _ src
  cases lf with
  | none =>
      simp [uploadFile] at h
      obtain ⟨hstep, hfs⟩ := h
      subst hfs
      refine ⟨rfl, fun _ => rfl, fun hc => ?_⟩
      rcases hc with hc | hc | hc | hc <;> (rw [← hstep] at hc; cases hc)
  | some f =>
      by_cases h1 : env.localStatErr
      · simp [uploadFile, h1] at h
        obtain ⟨hstep, hfs⟩ := h
        subst hfs
        refine ⟨rfl, fun _ => rfl, fun hc => ?_⟩
        rcases hc with hc | hc | hc | hc <;> (rw [← hstep] at hc; cases hc)
      · by_cases h2 : env.createErr
        · simp [uploadFile, h1, h2] at h
          obtain ⟨hstep, hfs⟩ := h
          subst hfs
          refine ⟨rfl, fun _ => rfl, fun hc => ?_⟩
          rcases hc with hc | hc | hc | hc <;> (rw [← hstep] at hc; cases hc)
        · by_cases h3 : env.chmodErr
          · simp [uploadFile, h1, h2, h3] at h
            obtain ⟨hstep, hfs⟩ := h
            subst hfs
            refine ⟨?_, fun hc => ?_, fun _ => fsLookup_remove_self _ _⟩
            · rw [fsLookup_remove_ne _ hne, fsLookup_set_ne _ _ hne]
            · rcases hc with hc | hc | hc <;> (rw [← hstep] at hc; cases hc)
          · by_cases h4 : env.copyErr
            · simp [uploadFile, h1, h2, h3, h4] at h
              obtain ⟨hstep, hfs⟩ := h
              subst hfs
              refine ⟨?_, fun hc => ?_, fun _ => fsLookup_remove_self _ _⟩
              · rw [fsChmod_set, fsLookup_remove_ne _ hne,
                  fsLookup_set_ne _ _ hne, fsLookup_set_ne _ _ hne]
              · rcases hc with hc | hc | hc <;> (rw [← hstep] at hc; cases hc)
            · by_cases h5 : env.closeErr
              · simp [uploadFile, h1, h2, h3, h4, h5] at h
                obtain ⟨hstep, hfs⟩ := h
                subst hfs
                refine ⟨?_, fun hc => ?_, fun _ => fsLookup_remove_self _ _⟩
                · rw [fsChmod_set, fsWrite_set, fsLookup_remove_ne _ hne,
                    fsLookup_set_ne _ _ hne, fsLookup_set_ne _ _ hne,
                    fsLookup_set_ne _ _ hne]
                · rcases hc with hc | hc | hc <;> (rw [← hstep] at hc; cases hc)
              · by_cases h6 : env.renameErr
                · simp [uploadFile, h1, h2, h3, h4, h5, h6] at h
                  obtain ⟨hstep, hfs⟩ := h
                  subst hfs
                  refine ⟨?_, fun hc => ?_, fun _ => fsLookup_remove_self _ _⟩
                  · rw [fsChmod_set, fsWrite_set, fsLookup_remove_ne _ hne,
                      fsLookup_set_ne _ _ hne, fsLookup_set_ne _ _ hne,
                      fsLookup_set_ne _ _ hne]
                  · rcases hc with hc | hc | hc <;> (rw [← hstep] at hc; cases hc)
                · simp [uploadFile, h1, h2, h3, h4, h5, h6] at h

/-- C5 witness: a concrete copy failure removes the temp and leaves the
    (empty) remote unchanged. -/
theorem claim_C5_witness :
    uploadFile ⟨false, false, false, true, false, false⟩
        (some ⟨0o640, strBytes "hi"⟩) (fun _ => 0)
        (strBytes "up") (strBytes "a.sh") [] = (some .copyTemp, []) ∧
    (fsLookup ([] : RFS) (pathJoin (strBytes "up") (goBase (strBytes "a.sh"))) =
        fsLookup ([] : RFS) (pathJoin (strBytes "up") (goBase (strBytes "a.sh"))) ∧
      ((UpStep.copyTemp = .openLocal ∨ UpStep.copyTemp = .statLocal ∨
          UpStep.copyTemp = .createTemp) → ([] : RFS) = []) ∧
      ((UpStep.copyTemp = .chmodTemp ∨ UpStep.copyTemp = .copyTemp ∨
          UpStep.copyTemp = .closeTemp ∨ UpStep.copyTemp = .renameTemp) →
        fsLookup ([] : RFS)
          (uploadTempName (pathJoin (strBytes "up") (goBase (strBytes "a.sh")))
            (fun _ => 0)) = none)) :=
  ⟨by decide,
   claim_C5 ⟨false, false, false, true, false, false⟩
     (some ⟨0o640, strBytes "hi"⟩) (fun _ => 0)
     (strBytes "up") (strBytes "a.sh") [] .copyTemp [] (by decide)⟩

/-! ## C1: the runID / entryTime round trip -/

theorem natStr_digit_bounds : ∀ (n : Nat), ∀ c ∈ natStr n, 48 ≤ c ∧ c ≤ 57 := by
  intro n c hc
  rw [natStr] at hc
  by_cases hn : n = 0
  · simp [hn] at hc
    omega
  · simp [hn] at hc
    obtain ⟨d, hd, hdc⟩ := hc
    have := Nat.digits_lt_base (by norm_num) hd
    omega

theorem pad2_digit_bounds : ∀ (n : Nat), ∀ c ∈ pad2 n, 48 ≤ c ∧ c ≤ 57 := by
  intro n c hc
  rw [pad2] at hc
  by_cases hn : n < 10
  · simp [hn] at hc
    rcases hc with hc | hc <;> omega
  · simp [hn] at hc
    exact natStr_digit_bounds n c hc

theorem splitFirstB_left {sep : Nat} :
    ∀ (a : GoStr), (∀ c ∈ a, ¬c = sep) → ∀ (b : GoStr),
      splitFirstB sep (a ++ sep :: b) = some (a, b) := by
  intro a
  induction a with
  | nil => intro _ b; simp [splitFirstB]
  | cons c as ih =>
      intro h b
      have hc : ¬c = sep := h c (by simp)
      have has : ∀ c2 ∈ as, ¬c2 = sep := fun c2 h2 => h c2 (by simp [h2])
      simp [splitFirstB, hc, ih has b]

theorem parse2_two (a b : Nat) (r : GoStr) (ha : a ≤ 9) (hb : b ≤ 9) :
    parse2 ((48 + a) :: (48 + b) :: r) = some (a * 10 + b, r) := by
  have h1 : isDigitB (48 + a) = true := by simp [isDigitB]; omega
  have h2 : isDigitB (48 + b) = true := by simp [isDigitB]; omega
  simp [parse2, h1, h2]

theorem natStr_two {m : Nat} (h1 : 10 ≤ m) (h2 : m ≤ 99) :
    natStr m = [48 + m / 10, 48 + m % 10] := by
  have hm0 : m ≠ 0 := by omega
  have hq : (m / 10) % 10 = m / 10 := by omega
  have hqq : m / 10 / 10 = 0 := by omega
  rw [natStr, if_neg hm0]
  have d1 : Nat.digits 10 m = m % 10 :: Nat.digits 10 (m / 10) :=
    Nat.digits_def' (by norm_num) (by omega)
  have d2 : Nat.digits 10 (m / 10) = (m / 10) % 10 :: Nat.digits 10 (m / 10 / 10) :=
    Nat.digits_def' (by norm_num) (by omega)
  rw [d1, d2, hqq]
  simp [hq]

theorem parse2_pad2 {m : Nat} (hm : m ≤ 99) (r : GoStr) :
    parse2 (pad2 m ++ r) = some (m, r) := by
  by_cases h : m < 10
  · rw [pad2, if_pos h]
    have := parse2_two 0 m r (by omega) (by omega)
    simpa using this
  · rw [pad2, if_neg h]
    rw [natStr_two (by omega) hm]
    have hv : m / 10 * 10 + m % 10 = m := by omega
    have := parse2_two (m / 10) (m % 10) r (by omega) (by omega)
    simp only [List.cons_append, List.nil_append] at this ⊢
    rw [this, hv]

theorem natStr_four {y : Nat} (h1 : 1000 ≤ y) (h2 : y ≤ 9999) :
    natStr y = [48 + y / 1000, 48 + y / 100 % 10, 48 + y / 10 % 10, 48 + y % 10] := by
  have hy0 : y ≠ 0 := by omega
  have hA : y / 10 / 10 = y / 100 := by omega
  have hB : y / 10 / 10 / 10 = y / 1000 := by omega
  have hC : y / 1000 % 10 = y / 1000 := by omega
  have h5 : y / 10 / 10 / 10 / 10 = 0 := by omega
  rw [natStr, if_neg hy0]
  have d1 : Nat.digits 10 y = y % 10 :: Nat.digits 10 (y / 10) :=
    Nat.digits_def' (by norm_num) (by omega)
  have d2 : Nat.digits 10 (y / 10) = (y / 10) % 10 :: Nat.digits 10 (y / 10 / 10) :=
    Nat.digits_def' (by norm_num) (by omega)
  have d3 : Nat.digits 10 (y / 10 / 10) =
      (y / 10 / 10) % 10 :: Nat.digits 10 (y / 10 / 10 / 10) :=
    Nat.digits_def' (by norm_num) (by omega)
  have d4 : Nat.digits 10 (y / 10 / 10 / 10) =
      (y / 10 / 10 / 10) % 10 :: Nat.digits 10 (y / 10 / 10 / 10 / 10) :=
    Nat.digits_def' (by norm_num) (by omega)
  rw [d1, d2, d3, d4, h5]
  simp [hA, hB, hC]
  omega

theorem parse4_natStr {y : Nat} (h1 : 1000 ≤ y) (h2 : y ≤ 9999) (r : GoStr) :
    parse4 (natStr y ++ r) = some (y, r) := by
  rw [natStr_four h1 h2]
  have p1 := parse2_two (y / 1000) (y / 100 % 10)
    ((48 + y / 10 % 10) :: (48 + y % 10) :: r) (by omega) (by omega)
  have p2 := parse2_two (y / 10 % 10) (y % 10) r (by omega) (by omega)
  have hv : (y / 1000 * 10 + y / 100 % 10) * 100 + (y / 10 % 10 * 10 + y % 10) = y := by
    omega
  simp only [List.cons_append, List.nil_append, parse4, p1, p2, hv]

theorem dateOnly_no_sep (y mo d : Nat) :
    ∀ c ∈ dateOnlyStr y mo d, 45 ≤ c ∧ c ≤ 57 ∧ ¬c = 46 ∧ ¬c = 47 := by
  intro c hc
  simp only [dateOnlyStr, List.append_assoc, List.mem_append,
    List.mem_singleton] at hc
  rcases hc with hc | hc | hc | hc | hc
  · have := natStr_digit_bounds y c hc; omega
  · omega
  · have := pad2_digit_bounds mo c hc; omega
  · omega
  · have := pad2_digit_bounds d c hc; omega

theorem timeOnly_no_sep (h mi s : Nat) :
    ∀ c ∈ timeOnlyStr h mi s, ¬c = 46 ∧ ¬c = 47 := by
  intro c hc
  simp only [timeOnlyStr, List.append_assoc, List.mem_append,
    List.mem_singleton] at hc
  rcases hc with hc | hc | hc | hc | hc
  · have := pad2_digit_bounds h c hc; omega
  · omega
  · have := pad2_digit_bounds mi c hc; omega
  · omega
  · have := pad2_digit_bounds s c hc; omega

theorem daysIn_le_31 (mo y : Nat) : daysIn mo y ≤ 31 := by
  rw [daysIn]
  split
  · split <;> omega
  · split <;> omega

theorem parseRunDir_hour_colon {y mo d h : Nat} (rest : GoStr)
    (hy1 : 1000 ≤ y) (hy2 : y ≤ 9999) (hmo1 : 1 ≤ mo) (hmo2 : mo ≤ 12)
    (hd1 : 1 ≤ d) (hd2 : d ≤ daysIn mo y) (hh : h ≤ 99) :
    parseRunDir (natStr y ++ [45] ++ pad2 mo ++ [45] ++ pad2 d ++ [47]
      ++ pad2 h ++ 58 :: rest) = none := by
  have hmo : ¬(mo < 1 ∨ 12 < mo) := by omega
  have hd99 : d ≤ 99 := le_trans hd2 (le_trans (daysIn_le_31 mo y) (by omega))
  have hd : ¬(d < 1 ∨ daysIn mo y < d) := by omega
  simp only [List.append_assoc, List.cons_append, List.nil_append,
    List.singleton_append]
  simp only [parseRunDir, parse4_natStr hy1 hy2,
    parse2_pad2 (show mo ≤ 99 by omega), parse2_pad2 hd99,
    parse2_pad2 hh, expectB, if_neg hmo, if_neg hd, if_true, if_false,
    ite_self]
  simp

theorem entryTime_runID_none (y mo d h mi s pid : Nat)
    (hy1 : 1000 ≤ y) (hy2 : y ≤ 9999) (hmo1 : 1 ≤ mo) (hmo2 : mo ≤ 12)
    (hd1 : 1 ≤ d) (hd2 : d ≤ daysIn mo y) (hh : h ≤ 23) :
    entryTime (runID y mo d h mi s pid) = none := by
  have hdate := dateOnly_no_sep y mo d
  have htime := timeOnly_no_sep h mi s
  have hsplit : splitFirstB 47 (runID y mo d h mi s pid) =
      some (dateOnlyStr y mo d, timeOnlyStr h mi s ++ [46] ++ natStr pid) := by
    have hshape : runID y mo d h mi s pid =
        dateOnlyStr y mo d ++ 47 :: (timeOnlyStr h mi s ++ [46] ++ natStr pid) := by
      simp [runID, List.append_assoc]
    rw [hshape]
    exact splitFirstB_left _ (fun c hc => (hdate c hc).2.2.2) _
  have hdot : splitFirstB 46 (timeOnlyStr h mi s ++ [46] ++ natStr pid) =
      some (timeOnlyStr h mi s, natStr pid) := by
    have hshape : timeOnlyStr h mi s ++ [46] ++ natStr pid =
        timeOnlyStr h mi s ++ 46 :: natStr pid := by
      simp [List.append_assoc]
    rw [hshape]
    exact splitFirstB_left _ (fun c hc => (htime c hc).1) _
  have harg : dateOnlyStr y mo d ++ [47] ++ timeOnlyStr h mi s =
      natStr y ++ [45] ++ pad2 mo ++ [45] ++ pad2 d ++ [47]
        ++ pad2 h ++ 58 :: (pad2 mi ++ [58] ++ pad2 s) := by
    simp [dateOnlyStr, timeOnlyStr, List.append_assoc]
  simp only [entryTime, hsplit, hdot, harg]
  exact parseRunDir_hour_colon _ hy1 hy2 hmo1 hmo2 hd1 hd2 (by omega)

theorem pathStr_single (a : GoStr) : pathStr [a] = a := by
  simp [pathStr, List.intercalate]

theorem pathStr_pair (a b : GoStr) : pathStr [a, b] = a ++ 47 :: b := by
  simp [pathStr, List.intercalate, List.intersperse]

theorem countB_eq_zero {s : GoStr} (h : ∀ c ∈ s, ¬c = 47) : countB 47 s = 0 :=
  List.countP_eq_zero.mpr (fun c hc => by simp [h c hc])

theorem countB_pair {a b : GoStr} (ha : ∀ c ∈ a, ¬c = 47)
    (hb : ∀ c ∈ b, ¬c = 47) : countB 47 (a ++ 47 :: b) = 1 := by
  have h1 : countB 47 a = 0 := countB_eq_zero ha
  have h2 : countB 47 b = 0 := countB_eq_zero hb
  unfold countB at h1 h2 ⊢
  rw [List.countP_append, List.countP_cons, h1, h2]
  simp

theorem timeSeg_no47 (h mi s pid : Nat) :
    ∀ c ∈ timeOnlyStr h mi s ++ [46] ++ natStr pid, ¬c = 47 := by
  intro c hc
  simp only [List.append_assoc, List.mem_append, List.mem_singleton] at hc
  rcases hc with hc | hc | hc
  · exact (timeOnly_no_sep h mi s c hc).2
  · omega
  · have := natStr_digit_bounds pid c hc; omega

theorem skipSubtree_cons3 (a b n : GoStr) (dir : Bool) (c : GoStr)
    (rest : List WalkEntry) :
    skipSubtree [a, b] (⟨[a, b, n], dir, c⟩ :: rest) = skipSubtree [a, b] rest := by
  simp only [skipSubtree, List.filter_cons]
  have hp : [a, b].isPrefixOf [a, b, n] = true := by
    rw [List.isPrefixOf_iff_prefix]
    exact ⟨[n], by simp⟩
  have hne : ([a, b, n] != [a, b]) = true := by
    rw [bne_iff_ne]
    simp
  rw [hp, hne]
  simp

theorem skipSubtree_nil (p : List GoStr) : skipSubtree p [] = [] := by
  simp [skipSubtree]

/-- C1 (failing input): runID formats the clock with `time.TimeOnly`, whose
    separators are colons, while entryTime parses the layout
    `2006-01-02/15-04-05`, whose separators are dashes.  Every run-directory
    name produced by runID therefore fails to parse back in entryTime, and
    ListHistory - walking the very directory Run wrote (with its command,
    duration, files, hosts.json and start files) - skips the whole run and
    returns no item at all instead of the claimed single item. -/
theorem claim_C1 (P : FieldParsers) (root cmdC durC filesC hostsC startC : GoStr)
    (y mo d h mi s pid : Nat)
    (hy1 : 1000 ≤ y) (hy2 : y ≤ 9999) (hmo1 : 1 ≤ mo) (hmo2 : mo ≤ 12)
    (hd1 : 1 ≤ d) (hd2 : d ≤ daysIn mo y) (hh : h ≤ 23)
    (hmi : mi ≤ 59) (hs : s ≤ 59) :
    entryTime (runID y mo d h mi s pid) = none ∧
    listHistory P root
      (runHistoryWalk y mo d h mi s pid cmdC durC filesC hostsC startC) = [] := by
  have hnone := entryTime_runID_none y mo d h mi s pid hy1 hy2 hmo1 hmo2 hd1 hd2 hh
  refine ⟨hnone, ?_⟩
  have hdate := dateOnly_no_sep y mo d
  have htime := timeSeg_no47 h mi s pid
  have hdate47 : ∀ c ∈ dateOnlyStr y mo d, ¬c = 47 :=
    fun c hc => (hdate c hc).2.2.2
  have hc1 : countB 47 (dateOnlyStr y mo d) = 0 := countB_eq_zero hdate47
  have hc2 : countB 47 (dateOnlyStr y mo d ++ 47 ::
      (timeOnlyStr h mi s ++ [46] ++ natStr pid)) = 1 :=
    countB_pair hdate47 htime
  have hshape : dateOnlyStr y mo d ++ 47 ::
      (timeOnlyStr h mi s ++ [46] ++ natStr pid) = runID y mo d h mi s pid := by
    simp [runID, List.append_assoc]
  have hnone2 : entryTime (dateOnlyStr y mo d ++ 47 ::
      (timeOnlyStr h mi s ++ [46] ++ natStr pid)) = none := by
    rw [hshape]; exact hnone
  rw [listHistory, runHistoryWalk]
  have step1 : ∀ (rest : List WalkEntry),
      walkHistory P root (⟨[dateOnlyStr y mo d], true, []⟩ :: rest) [] =
        walkHistory P root rest [] := by
    intro rest
    rw [walkHistory.eq_def]
    simp only [pathStr_single, hc1]
  rw [step1]
  have step2 : ∀ (rest : List WalkEntry),
      walkHistory P root
        (⟨[dateOnlyStr y mo d, timeOnlyStr h mi s ++ [46] ++ natStr pid],
          true, []⟩ :: rest) [] =
        walkHistory P root
          (skipSubtree
            [dateOnlyStr y mo d, timeOnlyStr h mi s ++ [46] ++ natStr pid]
            rest) [] := by
    intro rest
    rw [walkHistory.eq_def]
    simp only [pathStr_pair, hc2, hnone2, eq_self_iff_true, if_true]
  rw [step2]
  rw [skipSubtree_cons3, skipSubtree_cons3, skipSubtree_cons3,
    skipSubtree_cons3, skipSubtree_cons3, skipSubtree_nil]
  rw [walkHistory]
  simp [sortByTimeDesc]

/-- C1 witness at the runID of 2025-01-15 10:30:00 with pid 12345. -/
theorem claim_C1_witness :
    ((1000 ≤ 2025 ∧ 2025 ≤ 9999 ∧ 1 ≤ 1 ∧ 1 ≤ 12 ∧ 1 ≤ 15 ∧
        15 ≤ daysIn 1 2025 ∧ 10 ≤ 23 ∧ 30 ≤ 59 ∧ 0 ≤ 59) ∧
      (entryTime (runID 2025 1 15 10 30 0 12345) = none ∧
        listHistory ⟨fun _ => none, fun _ => none, fun _ => none⟩ (strBytes "x")
          (runHistoryWalk 2025 1 15 10 30 0 12345 (strBytes "uptime")
            (strBytes "5s") (strBytes "a.sh") (strBytes "hj")
            (strBytes "2025-01-15T10:30:00Z")) = [])) :=
  ⟨by decide,
   claim_C1 ⟨fun _ => none, fun _ => none, fun _ => none⟩ (strBytes "x")
     (strBytes "uptime") (strBytes "5s") (strBytes "a.sh") (strBytes "hj")
     (strBytes "2025-01-15T10:30:00Z") 2025 1 15 10 30 0 12345
     (by decide) (by decide) (by decide) (by decide) (by decide) (by decide)
     (by decide) (by decide) (by decide)⟩

/-! ## C2: the executable bit is added without consulting the Exec task -/

/-- C2 (failing input): part_003's Job.Upload runs makeExec whenever at
    least one file was uploaded, without testing the Exec task.  A job whose
    task set is Upload only - Exec not pending - still gets its first
    file's remote mode changed to 0640 | 0111 = 0751 after the rename,
    contradicting the claim (and the repository's own
    `preserves_permissions` test, which asserts the mode stays 0640). -/
theorem claim_C2 :
    tasksHas UploadTask ExecTask = false ∧
    (jobUpload ⟨false, false, false, false, false, false⟩
        (fun f => if f = strBytes "main.sh" then some ⟨0o640, strBytes "hi"⟩
                  else none)
        (fun _ => 0) (strBytes "uploads") [strBytes "main.sh"] []).1 = true ∧
    ((jobUpload ⟨false, false, false, false, false, false⟩
        (fun f => if f = strBytes "main.sh" then some ⟨0o640, strBytes "hi"⟩
                  else none)
        (fun _ => 0) (strBytes "uploads") [strBytes "main.sh"] []).2
      |> (fun fs => (fsLookup fs (strBytes "uploads/main.sh")).map RFile.mode))
      = some 0o751 ∧
    (0o751 : Nat) ≠ 0o640 := by
  refine ⟨by decide, by decide, by decide, by decide⟩

/-! ## C4: the retry bound and the early retirement on upload failure -/

/-- C4 (failing input): in part_003's Start the upload failure branch
    declares a shadowed `err`, so the deferred retire check sees the outer
    `err` still nil: an attempt whose upload fails on try 1 with
    maxRetries 5 returns an ErrFileTransfer-wrapped error yet forces the
    task set to empty - the job is retired by an erroring attempt whose
    tries (1) does not exceed maxRetries (5), contradicting the claim. -/
theorem claim_C4 :
    (jobStart
        ⟨false, false, none, true, false, none,
          some (.sentinelErr 99 "permission denied"), none, false, none, none⟩
        ⟨0, 5, 10, false, false, false, false⟩).1 =
      some (.wrap errFileTransfer (.sentinelErr 99 "permission denied")) ∧
    (jobStart
        ⟨false, false, none, true, false, none,
          some (.sentinelErr 99 "permission denied"), none, false, none, none⟩
        ⟨0, 5, 10, false, false, false, false⟩).2.tasks = 0 ∧
    (jobStart
        ⟨false, false, none, true, false, none,
          some (.sentinelErr 99 "permission denied"), none, false, none, none⟩
        ⟨0, 5, 10, false, false, false, false⟩).2.tries = 1 ∧
    (1 : Nat) ≤ 5 := by
  refine ⟨by decide, by decide, by decide, by decide⟩

/-! ## C8: execution errors are not counted by WriteStats -/

/-- C8 (failing input): Start wraps execution failures with ErrExecution
    (part_003), but WriteStats (util.go) buckets with
    `errors.Is(err, ErrExection)` - a different sentinel - so an archive
    whose single entry holds the execution error produced by Start yields a
    statuses map with every category zero: the execution bucket misses it
    (the header still shows max tries 1 and the total counts 1 entry). -/
theorem claim_C8 :
    (jobStart
        ⟨false, false, none, true, false, none, none,
          some (.sentinelErr 99 "exit status 1"), false, none, none⟩
        ⟨0, 0, 2, false, false, false, false⟩).1 =
      some (.wrap errExecution (.sentinelErr 99 "exit status 1")) ∧
    errorsIs (.wrap errExecution (.sentinelErr 99 "exit status 1"))
      errExection = false ∧
    errorsIs (.wrap errExecution (.sentinelErr 99 "exit status 1"))
      errExecution = true ∧
    writeStatsCounts
        [(⟨strBytes "h", 1, 0⟩,
          some (.wrap errExecution (.sentinelErr 99 "exit status 1")))] =
      (1, ⟨0, 0, 0, 0, 0⟩) := by
  refine ⟨by decide, by decide, by decide, by decide⟩

/-! ## C9: Start with an already-cancelled context -/

/-- C9: for every job with a non-empty task set, Start under an already
    cancelled context returns the cancellation error and leaves the whole
    job state - tries, task bits, transports, output sink - unchanged. -/
theorem claim_C9 (a : Attempt) (j : JobSt)
    (hne : tasksDone j.tasks = false) (hc : a.ctxCanceled = true) :
    jobStart a j = (some .ctxCanceled, j) := by
  simp [jobStart, hne, hc]

/-- C9 witness at a concrete pending job and cancelled attempt. -/
theorem claim_C9_witness :
    tasksDone (2 : Tasks) = false ∧
    jobStart
      ⟨true, false, none, true, false, none, none, none, false, none, none⟩
      ⟨3, 5, 2, true, false, false, false⟩ =
      (some .ctxCanceled, ⟨3, 5, 2, true, false, false, false⟩) :=
  ⟨by decide,
   claim_C9 ⟨true, false, none, true, false, none, none, none, false, none, none⟩
     ⟨3, 5, 2, true, false, false, false⟩ (by decide) rfl⟩


theorem lfsLookup_set_self (l : LFS) (k : RPath) (v : FsKind) :
    lfsLookup (lfsSet l k v) k = some v := alLookup_alSet_self l k v

theorem lfsLookup_set_ne (l : LFS) {k k2 : RPath} (v : FsKind) (h : k2 ≠ k) :
    lfsLookup (lfsSet l k v) k2 = lfsLookup l k2 := alLookup_alSet_ne l v h

theorem lfsLookup_remove_ne (l : LFS) {k k2 : RPath} (h : k2 ≠ k) :
    lfsLookup (lfsRemove l k) k2 = lfsLookup l k2 := alLookup_alRemove_ne l h

theorem lfsChmod_lookup_ne (l : LFS) {k k2 : RPath} (m : Nat) (h : k2 ≠ k) :
    lfsLookup (lfsChmod l k m) k2 = lfsLookup l k2 := by
  rw [lfsChmod]
  cases lfsLookup l k with
  | none => rfl
  | some v => cases v <;> simp [lfsLookup_set_ne _ _ h]

theorem lfsWrite_lookup_ne (l : LFS) {k k2 : RPath} (c : GoStr) (h : k2 ≠ k) :
    lfsLookup (lfsWrite l k c) k2 = lfsLookup l k2 := by
  rw [lfsWrite]
  cases lfsLookup l k with
  | none => rfl
  | some v => cases v <;> simp [lfsLookup_set_ne _ _ h]

theorem lfsRename_lookup_other (l : LFS) {src dst k : RPath}
    (h1 : k ≠ src) (h2 : k ≠ dst) :
    lfsLookup (lfsRename l src dst) k = lfsLookup l k := by
  rw [lfsRename]
  cases lfsLookup l src with
  | none => rfl
  | some v => rw [lfsLookup_set_ne _ _ h2, lfsLookup_remove_ne _ h1]

theorem mkdirAllAux_preserves :
    ∀ (qs : List RPath) (l l' : LFS) (perm : Nat),
      mkdirAllAux l perm qs = some l' →
      ∀ (k : RPath) (v : FsKind), lfsLookup l k = some v → lfsLookup l' k = some v := by
  intro qs
  induction qs with
  | nil => intro l l' perm h k v hk; simp [mkdirAllAux] at h; subst h; exact hk
  | cons q rest ih =>
      intro l l' perm h k v hk
      rw [mkdirAllAux] at h
      cases hq : lfsLookup l q with
      | none =>
          rw [hq] at h
          by_cases hkq : k = q
          · subst hkq; rw [hk] at hq; cases hq
          · exact ih _ _ _ h k v (by rw [lfsLookup_set_ne _ _ hkq]; exact hk)
      | some w =>
          rw [hq] at h
          cases w with
          | dirK m => exact ih _ _ _ h k v hk
          | fileK m c => cases h
          | linkK t => cases h

theorem mkdirAllAux_establishes :
    ∀ (qs : List RPath) (l l' : LFS) (perm : Nat),
      mkdirAllAux l perm qs = some l' →
      ∀ q ∈ qs, ∃ m, lfsLookup l' q = some (.dirK m) := by
  intro qs
  induction qs with
  | nil => intro l l' perm h q hq; simp at hq
  | cons q0 rest ih =>
      intro l l' perm h q hq
      rw [mkdirAllAux] at h
      rcases List.mem_cons.mp hq with hq1 | hq1
      · subst hq1
        cases hq0 : lfsLookup l q with
        | none =>
            rw [hq0] at h
            exact ⟨perm, mkdirAllAux_preserves _ _ _ _ h q _ (lfsLookup_set_self _ _ _)⟩
        | some w =>
            rw [hq0] at h
            cases w with
            | dirK m => exact ⟨m, mkdirAllAux_preserves _ _ _ _ h q _ hq0⟩
            | fileK m c => cases h
            | linkK t => cases h
      · cases hq0 : lfsLookup l q0 with
        | none => rw [hq0] at h; exact ih _ _ _ h q hq1
        | some w =>
            rw [hq0] at h
            cases w with
            | dirK m => exact ih _ _ _ h q hq1
            | fileK m c => cases h
            | linkK t => cases h

theorem mkdirAllAux_identity :
    ∀ (qs : List RPath) (l : LFS) (perm : Nat),
      (∀ q ∈ qs, ∃ m, lfsLookup l q = some (.dirK m)) →
      mkdirAllAux l perm qs = some l := by
  intro qs
  induction qs with
  | nil => intro l perm _; rfl
  | cons q rest ih =>
      intro l perm h
      obtain ⟨m, hm⟩ := h q (by simp)
      rw [mkdirAllAux, hm]
      exact ih l perm (fun q2 hq2 => h q2 (by simp [hq2]))

theorem isTempPath_tempPathOf (p : RPath) (hex : GoStr) :
    isTempPath hex (tempPathOf p hex) = true := by
  rw [tempPathOf]
  cases hl : p.getLast? with
  | none =>
      simp [isTempPath, List.isSuffixOf_iff_suffix]
  | some last =>
      simp only [isTempPath, List.getLast?_concat]
      rw [List.isSuffixOf_iff_suffix]
      exact ⟨last, by simp⟩

theorem factHolds_dirAt {l : LFS} {q : RPath} :
    factHolds l (.dirAt q) = true ↔ ∃ m, lfsLookup l q = some (.dirK m) := by
  rw [factHolds]
  cases h : lfsLookup l q with
  | none => simp
  | some w => cases w <;> simp

theorem factHolds_existsAt {l : LFS} {q : RPath} :
    factHolds l (.existsAt q) = true ↔ ∃ v, lfsLookup l q = some v := by
  rw [factHolds]
  cases h : lfsLookup l q with
  | none => simp
  | some w => simp

theorem factHolds_of_lookup_eq {l l' : LFS} (f : PlanFact)
    (he : lfsLookup l' (factPath f) = lfsLookup l (factPath f))
    (hh : factHolds l f = true) : factHolds l' f = true := by
  cases f with
  | existsAt q =>
      rw [factHolds_existsAt] at hh ⊢
      obtain ⟨v, hv⟩ := hh
      exact ⟨v, by rw [factPath] at he; rw [he]; exact hv⟩
  | dirAt q =>
      rw [factHolds_dirAt] at hh ⊢
      obtain ⟨m, hm⟩ := hh
      exact ⟨m, by rw [factPath] at he; rw [he]; exact hm⟩

theorem factHolds_lookup_some {l : LFS} {f : PlanFact}
    (hh : factHolds l f = true) : ∃ v, lfsLookup l (factPath f) = some v := by
  cases f with
  | existsAt q => rw [factHolds_existsAt] at hh; exact hh
  | dirAt q =>
      rw [factHolds_dirAt] at hh
      obtain ⟨m, hm⟩ := hh
      exact ⟨_, hm⟩

theorem downloadFile_pres {rem : Remote} {hex : GoStr} {localDir rp : RPath}
    {l l' : LFS} (h : downloadFile rem hex localDir rp l = (none, l'))
    (f : PlanFact) (hf : isTempPath hex (factPath f) = false)
    (hh : factHolds l f = true) : factHolds l' f = true := by
  rw [downloadFile] at h
  cases hq : lfsLookup l (localDir ++ rp) with
  | some w =>
      rw [hq] at h
      simp at h
      rw [← h]
      exact hh
  | none =>
      rw [hq] at h
      cases hr : remoteLstat rem rp with
      | none => rw [hr] at h; simp at h
      | some w =>
          rw [hr] at h
          cases w with
          | linkK t => simp at h
          | dirK m => simp at h
          | fileK mode content =>
              simp only [] at h
              cases hm : mkdirAll l (localDir ++ rp).dropLast 0o755 with
              | none => rw [hm] at h; simp at h
              | some l1 =>
                  rw [hm] at h
                  dsimp only [] at h
                  have hq_ne_temp : factPath f ≠ tempPathOf (localDir ++ rp) hex := by
                    intro he
                    rw [he, isTempPath_tempPathOf] at hf
                    cases hf
                  have hq_ne_target : factPath f ≠ localDir ++ rp := by
                    intro he
                    obtain ⟨v, hv⟩ := factHolds_lookup_some hh
                    rw [he, hq] at hv
                    cases hv
                  obtain ⟨v, hv⟩ := factHolds_lookup_some hh
                  have hv1 : lfsLookup l1 (factPath f) = some v :=
                    mkdirAllAux_preserves _ _ _ _ hm _ _ hv
                  cases ht : lfsLookup l1 (tempPathOf (localDir ++ rp) hex) with
                  | some w2 =>
                      cases w2 with
                      | dirK m2 => rw [ht] at h; simp at h
                      | fileK m2 c2 =>
                          rw [ht] at h
                          simp only [Prod.mk.injEq, true_and] at h
                          subst h
                          refine factHolds_of_lookup_eq f ?_ hh
                          rw [lfsRename_lookup_other _ hq_ne_temp hq_ne_target,
                            lfsWrite_lookup_ne _ _ hq_ne_temp,
                            lfsChmod_lookup_ne _ _ hq_ne_temp,
                            lfsLookup_set_ne _ _ hq_ne_temp]
                          rw [hv1, hv]
                      | linkK t2 =>
                          rw [ht] at h
                          simp only [Prod.mk.injEq, true_and] at h
                          subst h
                          refine factHolds_of_lookup_eq f ?_ hh
                          rw [lfsRename_lookup_other _ hq_ne_temp hq_ne_target,
                            lfsWrite_lookup_ne _ _ hq_ne_temp,
                            lfsChmod_lookup_ne _ _ hq_ne_temp,
                            lfsLookup_set_ne _ _ hq_ne_temp]
                          rw [hv1, hv]
                  | none =>
                      rw [ht] at h
                      simp only [Prod.mk.injEq, true_and] at h
                      subst h
                      refine factHolds_of_lookup_eq f ?_ hh
                      rw [lfsRename_lookup_other _ hq_ne_temp hq_ne_target,
                        lfsWrite_lookup_ne _ _ hq_ne_temp,
                        lfsChmod_lookup_ne _ _ hq_ne_temp,
                        lfsLookup_set_ne _ _ hq_ne_temp]
                      rw [hv1, hv]

theorem lfsChmod_set_file (l : LFS) (k : RPath) (m m2 : Nat) (cnt : GoStr) :
    lfsChmod (lfsSet l k (.fileK m cnt)) k m2 =
      lfsSet (lfsSet l k (.fileK m cnt)) k (.fileK m2 cnt) := by
  simp [lfsChmod, lfsLookup_set_self]

theorem lfsWrite_set_file (l : LFS) (k : RPath) (m : Nat) (cnt c2 : GoStr) :
    lfsWrite (lfsSet l k (.fileK m cnt)) k c2 =
      lfsSet (lfsSet l k (.fileK m cnt)) k (.fileK m c2) := by
  simp [lfsWrite, lfsLookup_set_self]

theorem downloadFile_post {rem : Remote} {hex : GoStr} {localDir rp : RPath}
    {l l2 : LFS} (h : downloadFile rem hex localDir rp l = (none, l2)) :
    factHolds l2 (.existsAt (localDir ++ rp)) = true := by
  rw [downloadFile] at h
  cases hq : lfsLookup l (localDir ++ rp) with
  | some w =>
      rw [hq] at h
      simp at h
      rw [factHolds_existsAt, ← h]
      exact ⟨w, hq⟩
  | none =>
      rw [hq] at h
      cases hr : remoteLstat rem rp with
      | none => rw [hr] at h; simp at h
      | some w =>
          rw [hr] at h
          cases w with
          | linkK t => simp at h
          | dirK m => simp at h
          | fileK mode content =>
              simp only [] at h
              cases hm : mkdirAll l (localDir ++ rp).dropLast 0o755 with
              | none => rw [hm] at h; simp at h
              | some l1 =>
                  rw [hm] at h
                  dsimp only [] at h
                  have hfin : ∀ (l9 : LFS),
                      lfsRename
                        (lfsWrite
                          (lfsChmod (lfsSet l9 (tempPathOf (localDir ++ rp) hex)
                            (.fileK 0o666 []))
                            (tempPathOf (localDir ++ rp) hex) (mode.land 0o777))
                          (tempPathOf (localDir ++ rp) hex) content)
                        (tempPathOf (localDir ++ rp) hex) (localDir ++ rp) =
                      lfsSet (lfsRemove
                        (lfsSet (lfsSet (lfsSet l9 (tempPathOf (localDir ++ rp) hex)
                          (.fileK 0o666 []))
                          (tempPathOf (localDir ++ rp) hex)
                          (.fileK (mode.land 0o777) []))
                          (tempPathOf (localDir ++ rp) hex)
                          (.fileK (mode.land 0o777) content))
                        (tempPathOf (localDir ++ rp) hex)) (localDir ++ rp)
                        (.fileK (mode.land 0o777) content) := by
                    intro l9
                    rw [lfsChmod_set_file, lfsWrite_set_file, lfsRename,
                      lfsLookup_set_self]
                  cases ht : lfsLookup l1 (tempPathOf (localDir ++ rp) hex) with
                  | some w2 =>
                      cases w2 with
                      | dirK m2 => rw [ht] at h; simp at h
                      | fileK m2 c2 =>
                          rw [ht] at h
                          simp only [Prod.mk.injEq, true_and] at h
                          rw [← h, hfin, factHolds_existsAt]
                          exact ⟨_, lfsLookup_set_self _ _ _⟩
                      | linkK t2 =>
                          rw [ht] at h
                          simp only [Prod.mk.injEq, true_and] at h
                          rw [← h, hfin, factHolds_existsAt]
                          exact ⟨_, lfsLookup_set_self _ _ _⟩
                  | none =>
                      rw [ht] at h
                      simp only [Prod.mk.injEq, true_and] at h
                      rw [← h, hfin, factHolds_existsAt]
                      exact ⟨_, lfsLookup_set_self _ _ _⟩

theorem downloadFile_rerun {rem : Remote} (hex : GoStr) {localDir rp : RPath}
    {l : LFS} (h : factHolds l (.existsAt (localDir ++ rp)) = true) :
    downloadFile rem hex localDir rp l = (none, l) := by
  rw [factHolds_existsAt] at h
  obtain ⟨v, hv⟩ := h
  rw [downloadFile, hv]

theorem downloadSymlink_pres {rem : Remote} {localDir rp : RPath}
    {l l2 : LFS} (h : downloadSymlink rem localDir rp l = (none, l2))
    (f : PlanFact) (hh : factHolds l f = true) : factHolds l2 f = true := by
  rw [downloadSymlink] at h
  cases hq : lfsLookup l (localDir ++ rp) with
  | some w =>
      rw [hq] at h
      simp at h
      rw [← h]
      exact hh
  | none =>
      rw [hq] at h
      cases hr : remoteLstat rem rp with
      | none => rw [hr] at h; simp at h
      | some w =>
          rw [hr] at h
          cases w with
          | fileK m c => simp at h
          | dirK m => simp at h
          | linkK target =>
              simp only [] at h
              cases hm : mkdirAll l (localDir ++ rp).dropLast 0o755 with
              | none => rw [hm] at h; simp at h
              | some l1 =>
                  rw [hm] at h
                  simp only [Prod.mk.injEq, true_and] at h
                  have hq_ne : factPath f ≠ localDir ++ rp := by
                    intro he
                    obtain ⟨v, hv⟩ := factHolds_lookup_some hh
                    rw [he, hq] at hv
                    cases hv
                  obtain ⟨v, hv⟩ := factHolds_lookup_some hh
                  have hv1 : lfsLookup l1 (factPath f) = some v :=
                    mkdirAllAux_preserves _ _ _ _ hm _ _ hv
                  refine factHolds_of_lookup_eq f ?_ hh
                  rw [← h, lfsLookup_set_ne _ _ hq_ne, hv1, hv]

theorem downloadSymlink_post {rem : Remote} {localDir rp : RPath}
    {l l2 : LFS} (h : downloadSymlink rem localDir rp l = (none, l2)) :
    factHolds l2 (.existsAt (localDir ++ rp)) = true := by
  rw [downloadSymlink] at h
  cases hq : lfsLookup l (localDir ++ rp) with
  | some w =>
      rw [hq] at h
      simp at h
      rw [factHolds_existsAt, ← h]
      exact ⟨w, hq⟩
  | none =>
      rw [hq] at h
      cases hr : remoteLstat rem rp with
      | none => rw [hr] at h; simp at h
      | some w =>
          rw [hr] at h
          cases w with
          | fileK m c => simp at h
          | dirK m => simp at h
          | linkK target =>
              simp only [] at h
              cases hm : mkdirAll l (localDir ++ rp).dropLast 0o755 with
              | none => rw [hm] at h; simp at h
              | some l1 =>
                  rw [hm] at h
                  simp only [Prod.mk.injEq, true_and] at h
                  rw [factHolds_existsAt, ← h]
                  exact ⟨_, lfsLookup_set_self _ _ _⟩

theorem downloadSymlink_rerun {rem : Remote} {localDir rp : RPath}
    {l : LFS} (h : factHolds l (.existsAt (localDir ++ rp)) = true) :
    downloadSymlink rem localDir rp l = (none, l) := by
  rw [factHolds_existsAt] at h
  obtain ⟨v, hv⟩ := h
  rw [downloadSymlink, hv]

theorem mkdirStep_pres {l l1 : LFS} {p : RPath} {perm : Nat}
    (h : mkdirAll l p perm = some l1)
    (f : PlanFact) (hh : factHolds l f = true) : factHolds l1 f = true := by
  obtain ⟨v, hv⟩ := factHolds_lookup_some hh
  refine factHolds_of_lookup_eq f ?_ hh
  rw [mkdirAllAux_preserves _ _ _ _ h _ _ hv, hv]

theorem mkdirStep_post {l l1 : LFS} {p : RPath} {perm : Nat}
    (h : mkdirAll l p perm = some l1) :
    ∀ f ∈ (prefixesOf p).map PlanFact.dirAt, factHolds l1 f = true := by
  intro f hf
  rw [List.mem_map] at hf
  obtain ⟨q, hq, hfq⟩ := hf
  subst hfq
  rw [factHolds_dirAt]
  exact mkdirAllAux_establishes _ _ _ _ h q hq

theorem mkdirStep_rerun {l : LFS} {p : RPath} (perm : Nat)
    (h : ∀ f ∈ (prefixesOf p).map PlanFact.dirAt, factHolds l f = true) :
    mkdirAll l p perm = some l := by
  rw [mkdirAll]
  refine mkdirAllAux_identity _ _ _ (fun q hq => ?_)
  have := h (.dirAt q) (List.mem_map.mpr ⟨q, hq, rfl⟩)
  rw [factHolds_dirAt] at this
  exact this

theorem planWalk_nil (localDir : RPath) : planWalk localDir [] = [] := by
  rw [planWalk]

theorem planWalk_link (localDir p : RPath) (t : GoStr)
    (rest : List (RPath × FsKind)) :
    planWalk localDir ((p, .linkK t) :: rest) =
      .existsAt (localDir ++ p)
        :: planWalk localDir (rest.filter (fun e => !strictUnder p e.1)) := by
  rw [planWalk.eq_def]

theorem planWalk_dir (localDir p : RPath) (m : Nat)
    (rest : List (RPath × FsKind)) :
    planWalk localDir ((p, .dirK m) :: rest) =
      (prefixesOf (localDir ++ p)).map .dirAt ++ planWalk localDir rest := by
  rw [planWalk.eq_def]

theorem planWalk_file (localDir p : RPath) (m : Nat) (c : GoStr)
    (rest : List (RPath × FsKind)) :
    planWalk localDir ((p, .fileK m c) :: rest) =
      .existsAt (localDir ++ p) :: planWalk localDir rest := by
  rw [planWalk.eq_def]

theorem walkLoop_nil (rem : Remote) (hex : GoStr) (localDir : RPath) (l : LFS) :
    walkLoop rem hex localDir [] l = (none, l) := by
  rw [walkLoop.eq_def]

theorem walkLoop_link (rem : Remote) (hex : GoStr) (localDir p : RPath)
    (t : GoStr) (rest : List (RPath × FsKind)) (l : LFS) :
    walkLoop rem hex localDir ((p, .linkK t) :: rest) l =
      match downloadSymlink rem localDir p l with
      | (some e, l1) => (some e, l1)
      | (none, l1) =>
          walkLoop rem hex localDir (rest.filter (fun e => !strictUnder p e.1)) l1 := by
  rw [walkLoop.eq_def]

theorem walkLoop_dir (rem : Remote) (hex : GoStr) (localDir p : RPath)
    (mode : Nat) (rest : List (RPath × FsKind)) (l : LFS) :
    walkLoop rem hex localDir ((p, .dirK mode) :: rest) l =
      match mkdirAll l (localDir ++ p) (mode.land 0o777) with
      | none => (some .mkdirStep, l)
      | some l1 => walkLoop rem hex localDir rest l1 := by
  rw [walkLoop.eq_def]

theorem walkLoop_file (rem : Remote) (hex : GoStr) (localDir p : RPath)
    (mode : Nat) (c : GoStr) (rest : List (RPath × FsKind)) (l : LFS) :
    walkLoop rem hex localDir ((p, .fileK mode c) :: rest) l =
      match downloadFile rem hex localDir p l with
      | (some e, l1) => (some e, l1)
      | (none, l1) => walkLoop rem hex localDir rest l1 := by
  rw [walkLoop.eq_def]

theorem walkLoop_pres {rem : Remote} {hex : GoStr} {localDir : RPath}
    (entries : List (RPath × FsKind)) (l : LFS) :
    ∀ l' : LFS, walkLoop rem hex localDir entries l = (none, l') →
      ∀ f, isTempPath hex (factPath f) = false →
        factHolds l f = true → factHolds l' f = true := by
  refine walkLoop.induct rem hex localDir
    (fun es st => ∀ l' : LFS, walkLoop rem hex localDir es st = (none, l') →
      ∀ f, isTempPath hex (factPath f) = false →
        factHolds st f = true → factHolds l' f = true)
    ?_ ?_ ?_ ?_ ?_ ?_ ?_ entries l
  · intro l l' h f _ hh
    rw [walkLoop.eq_def] at h
    simp at h
    rw [← h]
    exact hh
  · intro p rest l target e l1 hs l' h f _ _
    have hstep : walkLoop rem hex localDir ((p, FsKind.linkK target) :: rest) l
        = (some e, l1) := by
      rw [walkLoop_link, hs]
    rw [hstep] at h
    simp at h
  · intro p rest l target l1 hs ih l' h f hf hh
    have hstep : walkLoop rem hex localDir ((p, FsKind.linkK target) :: rest) l
        = walkLoop rem hex localDir
            (List.filter (fun e => !strictUnder p e.1) rest) l1 := by
      rw [walkLoop_link, hs]
    rw [hstep] at h
    exact ih l' h f hf (downloadSymlink_pres hs f hh)
  · intro p rest l mode hm l' h f _ _
    have hstep : walkLoop rem hex localDir ((p, FsKind.dirK mode) :: rest) l
        = (some DStep.mkdirStep, l) := by
      rw [walkLoop_dir, hm]
    rw [hstep] at h
    simp at h
  · intro p rest l mode l1 hm ih l' h f hf hh
    have hstep : walkLoop rem hex localDir ((p, FsKind.dirK mode) :: rest) l
        = walkLoop rem hex localDir rest l1 := by
      rw [walkLoop_dir, hm]
    rw [hstep] at h
    exact ih l' h f hf (mkdirStep_pres hm f hh)
  · intro p rest l mode content e l1 hs l' h f _ _
    have hstep : walkLoop rem hex localDir ((p, FsKind.fileK mode content) :: rest) l
        = (some e, l1) := by
      rw [walkLoop_file, hs]
    rw [hstep] at h
    simp at h
  · intro p rest l mode content l1 hs ih l' h f hf hh
    have hstep : walkLoop rem hex localDir ((p, FsKind.fileK mode content) :: rest) l
        = walkLoop rem hex localDir rest l1 := by
      rw [walkLoop_file, hs]
    rw [hstep] at h
    exact ih l' h f hf (downloadFile_pres hs f hf hh)

theorem walkLoop_post {rem : Remote} {hex : GoStr} {localDir : RPath}
    (entries : List (RPath × FsKind)) (l : LFS) :
    ∀ l' : LFS, walkLoop rem hex localDir entries l = (none, l') →
      (∀ f ∈ planWalk localDir entries, isTempPath hex (factPath f) = false) →
      ∀ f ∈ planWalk localDir entries, factHolds l' f = true := by
  refine walkLoop.induct rem hex localDir
    (fun es st => ∀ l' : LFS, walkLoop rem hex localDir es st = (none, l') →
      (∀ f ∈ planWalk localDir es, isTempPath hex (factPath f) = false) →
      ∀ f ∈ planWalk localDir es, factHolds l' f = true)
    ?_ ?_ ?_ ?_ ?_ ?_ ?_ entries l
  · intro l l' _ _ f hf
    rw [planWalk_nil] at hf
    simp at hf
  · intro p rest l target e l1 hs l' h _ f _
    have hstep : walkLoop rem hex localDir ((p, FsKind.linkK target) :: rest) l
        = (some e, l1) := by
      rw [walkLoop_link, hs]
    rw [hstep] at h
    simp at h
  · intro p rest l target l1 hs ih l' h hfresh f hf
    have hstep : walkLoop rem hex localDir ((p, FsKind.linkK target) :: rest) l
        = walkLoop rem hex localDir
            (List.filter (fun e => !strictUnder p e.1) rest) l1 := by
      rw [walkLoop_link, hs]
    rw [hstep] at h
    rw [planWalk_link] at hf hfresh
    rcases List.mem_cons.mp hf with hfe | hft
    · subst hfe
      exact walkLoop_pres _ _ l' h _ (hfresh _ (List.mem_cons_self _ _))
        (downloadSymlink_post hs)
    · exact ih l' h (fun g hg => hfresh g (List.mem_cons_of_mem _ hg)) f hft
  · intro p rest l mode hm l' h _ f _
    have hstep : walkLoop rem hex localDir ((p, FsKind.dirK mode) :: rest) l
        = (some DStep.mkdirStep, l) := by
      rw [walkLoop_dir, hm]
    rw [hstep] at h
    simp at h
  · intro p rest l mode l1 hm ih l' h hfresh f hf
    have hstep : walkLoop rem hex localDir ((p, FsKind.dirK mode) :: rest) l
        = walkLoop rem hex localDir rest l1 := by
      rw [walkLoop_dir, hm]
    rw [hstep] at h
    rw [planWalk_dir] at hf hfresh
    rcases List.mem_append.mp hf with hfm | hft
    · exact walkLoop_pres _ _ l' h f (hfresh f (List.mem_append.mpr (Or.inl hfm)))
        (mkdirStep_post hm f hfm)
    · exact ih l' h (fun g hg => hfresh g (List.mem_append.mpr (Or.inr hg))) f hft
  · intro p rest l mode content e l1 hs l' h _ f _
    have hstep : walkLoop rem hex localDir ((p, FsKind.fileK mode content) :: rest) l
        = (some e, l1) := by
      rw [walkLoop_file, hs]
    rw [hstep] at h
    simp at h
  · intro p rest l mode content l1 hs ih l' h hfresh f hf
    have hstep : walkLoop rem hex localDir ((p, FsKind.fileK mode content) :: rest) l
        = walkLoop rem hex localDir rest l1 := by
      rw [walkLoop_file, hs]
    rw [hstep] at h
    rw [planWalk_file] at hf hfresh
    rcases List.mem_cons.mp hf with hfe | hft
    · subst hfe
      exact walkLoop_pres _ _ l' h _ (hfresh _ (List.mem_cons_self _ _))
        (downloadFile_post hs)
    · exact ih l' h (fun g hg => hfresh g (List.mem_cons_of_mem _ hg)) f hft

theorem walkLoop_rerun {rem : Remote} {hex : GoStr} {localDir : RPath}
    (entries : List (RPath × FsKind)) (l : LFS) :
    (∀ f ∈ planWalk localDir entries, factHolds l f = true) →
    walkLoop rem hex localDir entries l = (none, l) := by
  refine walkLoop.induct rem hex localDir
    (fun es st => (∀ f ∈ planWalk localDir es, factHolds st f = true) →
      walkLoop rem hex localDir es st = (none, st))
    ?_ ?_ ?_ ?_ ?_ ?_ ?_ entries l
  · intro l _
    rw [walkLoop.eq_def]
  · intro p rest l target e l1 hs hfacts
    have h0 : factHolds l (PlanFact.existsAt (localDir ++ p)) = true := by
      refine hfacts _ ?_
      rw [planWalk_link]
      exact List.mem_cons_self _ _
    rw [downloadSymlink_rerun h0] at hs
    simp at hs
  · intro p rest l target l1 hs ih hfacts
    have h0 : factHolds l (PlanFact.existsAt (localDir ++ p)) = true := by
      refine hfacts _ ?_
      rw [planWalk_link]
      exact List.mem_cons_self _ _
    have hdl := @downloadSymlink_rerun rem localDir p l h0
    rw [hdl] at hs
    simp at hs
    subst hs
    have hrest := ih (fun g hg => hfacts g (by
      rw [planWalk_link]
      exact List.mem_cons_of_mem _ hg))
    have hstep : walkLoop rem hex localDir ((p, FsKind.linkK target) :: rest) l
        = walkLoop rem hex localDir
            (List.filter (fun e => !strictUnder p e.1) rest) l := by
      rw [walkLoop_link, hdl]
    rw [hstep]
    exact hrest
  · intro p rest l mode hm hfacts
    have h0 : ∀ f ∈ (prefixesOf (localDir ++ p)).map PlanFact.dirAt,
        factHolds l f = true := by
      intro g hg
      refine hfacts g ?_
      rw [planWalk_dir]
      exact List.mem_append.mpr (Or.inl hg)
    rw [mkdirStep_rerun (mode.land 0o777) h0] at hm
    simp at hm
  · intro p rest l mode l1 hm ih hfacts
    have h0 : ∀ f ∈ (prefixesOf (localDir ++ p)).map PlanFact.dirAt,
        factHolds l f = true := by
      intro g hg
      refine hfacts g ?_
      rw [planWalk_dir]
      exact List.mem_append.mpr (Or.inl hg)
    have hmk := mkdirStep_rerun (mode.land 0o777) h0
    rw [hmk] at hm
    have hl : l = l1 := Option.some.inj hm
    subst hl
    have hrest := ih (fun g hg => hfacts g (by
      rw [planWalk_dir]
      exact List.mem_append.mpr (Or.inr hg)))
    have hstep : walkLoop rem hex localDir ((p, FsKind.dirK mode) :: rest) l
        = walkLoop rem hex localDir rest l := by
      rw [walkLoop_dir, hmk]
    rw [hstep]
    exact hrest
  · intro p rest l mode content e l1 hs hfacts
    have h0 : factHolds l (PlanFact.existsAt (localDir ++ p)) = true := by
      refine hfacts _ ?_
      rw [planWalk_file]
      exact List.mem_cons_self _ _
    rw [downloadFile_rerun hex h0] at hs
    simp at hs
  · intro p rest l mode content l1 hs ih hfacts
    have h0 : factHolds l (PlanFact.existsAt (localDir ++ p)) = true := by
      refine hfacts _ ?_
      rw [planWalk_file]
      exact List.mem_cons_self _ _
    have hdl := @downloadFile_rerun rem hex localDir p l h0
    rw [hdl] at hs
    simp at hs
    subst hs
    have hrest := ih (fun g hg => hfacts g (by
      rw [planWalk_file]
      exact List.mem_cons_of_mem _ hg))
    have hstep : walkLoop rem hex localDir ((p, FsKind.fileK mode content) :: rest) l
        = walkLoop rem hex localDir rest l := by
      rw [walkLoop_file, hdl]
    rw [hstep]
    exact hrest

theorem planMatches_nil (rem : Remote) (localDir : RPath) :
    planMatches rem localDir [] = [] := by
  simp [planMatches]

theorem planMatches_cons (rem : Remote) (localDir m : RPath) (rest : List RPath) :
    planMatches rem localDir (m :: rest) =
      planPath rem localDir m ++ planMatches rem localDir rest := by
  simp [planMatches]

theorem planDownload_nil (rem : Remote) (localDir : RPath) :
    planDownload rem localDir [] = [] := by
  simp [planDownload]

theorem planDownload_cons (rem : Remote) (localDir : RPath) (pat : GoStr)
    (rest : List GoStr) :
    planDownload rem localDir (pat :: rest) =
      planMatches rem localDir (rem.globMatches pat) ++ planDownload rem localDir rest := by
  simp [planDownload, planMatches]

theorem downloadPath_pres {rem : Remote} {hex : GoStr} {localDir rp : RPath}
    {l l' : LFS} (h : downloadPath rem hex localDir rp l = (none, l'))
    (f : PlanFact) (hf : isTempPath hex (factPath f) = false)
    (hh : factHolds l f = true) : factHolds l' f = true := by
  rw [downloadPath] at h
  cases hls : remoteLstat rem rp with
  | none =>
      rw [hls] at h
      simp at h
  | some k =>
      cases k with
      | fileK m c =>
          rw [hls] at h
          exact downloadFile_pres h f hf hh
      | dirK m =>
          rw [hls] at h
          have h2 : walkLoop rem hex localDir (rem.walkOrder rp) l = (none, l') := h
          exact walkLoop_pres _ _ l' h2 f hf hh
      | linkK t =>
          rw [hls] at h
          exact downloadSymlink_pres h f hh

theorem downloadPath_post {rem : Remote} {hex : GoStr} {localDir rp : RPath}
    {l l' : LFS} (h : downloadPath rem hex localDir rp l = (none, l'))
    (hfresh : ∀ f ∈ planPath rem localDir rp, isTempPath hex (factPath f) = false) :
    ∀ f ∈ planPath rem localDir rp, factHolds l' f = true := by
  intro f hf
  rw [downloadPath] at h
  rw [planPath] at hf hfresh
  cases hls : remoteLstat rem rp with
  | none =>
      rw [hls] at hf
      simp at hf
  | some k =>
      cases k with
      | fileK m c =>
          rw [hls] at h hf
          simp at hf
          subst hf
          exact downloadFile_post h
      | dirK m =>
          rw [hls] at h hf hfresh
          have h2 : walkLoop rem hex localDir (rem.walkOrder rp) l = (none, l') := h
          exact walkLoop_post _ _ l' h2 hfresh f hf
      | linkK t =>
          rw [hls] at h hf
          simp at hf
          subst hf
          exact downloadSymlink_post h

theorem downloadPath_rerun {rem : Remote} {hex : GoStr} {localDir rp : RPath}
    {l l1 l2 : LFS} (h : downloadPath rem hex localDir rp l = (none, l1))
    (hfacts : ∀ f ∈ planPath rem localDir rp, factHolds l2 f = true) :
    downloadPath rem hex localDir rp l2 = (none, l2) := by
  rw [downloadPath] at h ⊢
  rw [planPath] at hfacts
  cases hls : remoteLstat rem rp with
  | none =>
      rw [hls] at h hfacts
      simp at h
  | some k =>
      cases k with
      | fileK m c =>
          rw [hls] at h hfacts
          have h0 : factHolds l2 (PlanFact.existsAt (localDir ++ rp)) = true :=
            hfacts _ (by simp)
          exact downloadFile_rerun hex h0
      | dirK m =>
          rw [hls] at h hfacts
          exact walkLoop_rerun _ _ hfacts
      | linkK t =>
          rw [hls] at h hfacts
          have h0 : factHolds l2 (PlanFact.existsAt (localDir ++ rp)) = true :=
            hfacts _ (by simp)
          exact downloadSymlink_rerun h0

theorem downloadMatches_pres {rem : Remote} {hex : GoStr} {localDir : RPath} :
    ∀ (ms : List RPath) (l l' : LFS),
      downloadMatches rem hex localDir ms l = (none, l') →
      ∀ f, isTempPath hex (factPath f) = false →
        factHolds l f = true → factHolds l' f = true := by
  intro ms
  induction ms with
  | nil =>
      intro l l' h f _ hh
      rw [downloadMatches] at h
      simp at h
      rw [← h]
      exact hh
  | cons m rest ih =>
      intro l l' h f hf hh
      rw [downloadMatches] at h
      cases hdp : downloadPath rem hex localDir m l with
      | mk o l1 =>
          rw [hdp] at h
          cases o with
          | some e => simp at h
          | none =>
              have h2 : downloadMatches rem hex localDir rest l1 = (none, l') := h
              exact ih l1 l' h2 f hf (downloadPath_pres hdp f hf hh)

theorem downloadMatches_post {rem : Remote} {hex : GoStr} {localDir : RPath} :
    ∀ (ms : List RPath) (l l' : LFS),
      downloadMatches rem hex localDir ms l = (none, l') →
      (∀ f ∈ planMatches rem localDir ms, isTempPath hex (factPath f) = false) →
      ∀ f ∈ planMatches rem localDir ms, factHolds l' f = true := by
  intro ms
  induction ms with
  | nil =>
      intro l l' _ _ f hf
      rw [planMatches_nil] at hf
      simp at hf
  | cons m rest ih =>
      intro l l' h hfresh f hf
      rw [downloadMatches] at h
      rw [planMatches_cons] at hf hfresh
      cases hdp : downloadPath rem hex localDir m l with
      | mk o l1 =>
          rw [hdp] at h
          cases o with
          | some e => simp at h
          | none =>
              have h2 : downloadMatches rem hex localDir rest l1 = (none, l') := h
              rcases List.mem_append.mp hf with hfm | hft
              · have h1 := downloadPath_post hdp
                  (fun g hg => hfresh g (List.mem_append.mpr (Or.inl hg))) f hfm
                exact downloadMatches_pres rest l1 l' h2 f
                  (hfresh f (List.mem_append.mpr (Or.inl hfm))) h1
              · exact ih l1 l' h2
                  (fun g hg => hfresh g (List.mem_append.mpr (Or.inr hg))) f hft

theorem downloadMatches_rerun {rem : Remote} {hex : GoStr} {localDir : RPath} :
    ∀ (ms : List RPath) (l l1 l2 : LFS),
      downloadMatches rem hex localDir ms l = (none, l1) →
      (∀ f ∈ planMatches rem localDir ms, factHolds l2 f = true) →
      downloadMatches rem hex localDir ms l2 = (none, l2) := by
  intro ms
  induction ms with
  | nil =>
      intro l l1 l2 _ _
      rw [downloadMatches]
  | cons m rest ih =>
      intro l l1 l2 h hfacts
      rw [downloadMatches] at h
      rw [planMatches_cons] at hfacts
      cases hdp : downloadPath rem hex localDir m l with
      | mk o lmid =>
          rw [hdp] at h
          cases o with
          | some e => simp at h
          | none =>
              have h2 : downloadMatches rem hex localDir rest lmid = (none, l1) := h
              have hp2 : downloadPath rem hex localDir m l2 = (none, l2) :=
                downloadPath_rerun hdp
                  (fun g hg => hfacts g (List.mem_append.mpr (Or.inl hg)))
              have hstep : downloadMatches rem hex localDir (m :: rest) l2
                  = downloadMatches rem hex localDir rest l2 := by
                rw [downloadMatches, hp2]
              rw [hstep]
              exact ih lmid l1 l2 h2
                (fun g hg => hfacts g (List.mem_append.mpr (Or.inr hg)))

theorem download_pres {rem : Remote} {hex : GoStr} {localDir : RPath} :
    ∀ (pats : List GoStr) (l l' : LFS),
      download rem hex localDir pats l = (none, l') →
      ∀ f, isTempPath hex (factPath f) = false →
        factHolds l f = true → factHolds l' f = true := by
  intro pats
  induction pats with
  | nil =>
      intro l l' h f _ hh
      rw [download] at h
      simp at h
      rw [← h]
      exact hh
  | cons pat rest ih =>
      intro l l' h f hf hh
      rw [download] at h
      cases hdm : downloadMatches rem hex localDir (rem.globMatches pat) l with
      | mk o l1 =>
          rw [hdm] at h
          cases o with
          | some e => simp at h
          | none =>
              have h2 : download rem hex localDir rest l1 = (none, l') := h
              exact ih l1 l' h2 f hf
                (downloadMatches_pres (rem.globMatches pat) l l1 hdm f hf hh)

theorem download_post {rem : Remote} {hex : GoStr} {localDir : RPath} :
    ∀ (pats : List GoStr) (l l' : LFS),
      download rem hex localDir pats l = (none, l') →
      (∀ f ∈ planDownload rem localDir pats, isTempPath hex (factPath f) = false) →
      ∀ f ∈ planDownload rem localDir pats, factHolds l' f = true := by
  intro pats
  induction pats with
  | nil =>
      intro l l' _ _ f hf
      rw [planDownload_nil] at hf
      simp at hf
  | cons pat rest ih =>
      intro l l' h hfresh f hf
      rw [download] at h
      rw [planDownload_cons] at hf hfresh
      cases hdm : downloadMatches rem hex localDir (rem.globMatches pat) l with
      | mk o l1 =>
          rw [hdm] at h
          cases o with
          | some e => simp at h
          | none =>
              have h2 : download rem hex localDir rest l1 = (none, l') := h
              rcases List.mem_append.mp hf with hfm | hft
              · have h1 := downloadMatches_post (rem.globMatches pat) l l1 hdm
                  (fun g hg => hfresh g (List.mem_append.mpr (Or.inl hg))) f hfm
                exact download_pres rest l1 l' h2 f
                  (hfresh f (List.mem_append.mpr (Or.inl hfm))) h1
              · exact ih l1 l' h2
                  (fun g hg => hfresh g (List.mem_append.mpr (Or.inr hg))) f hft

theorem download_rerun {rem : Remote} {hex : GoStr} {localDir : RPath} :
    ∀ (pats : List GoStr) (l l1 l2 : LFS),
      download rem hex localDir pats l = (none, l1) →
      (∀ f ∈ planDownload rem localDir pats, factHolds l2 f = true) →
      download rem hex localDir pats l2 = (none, l2) := by
  intro pats
  induction pats with
  | nil =>
      intro l l1 l2 _ _
      rw [download]
  | cons pat rest ih =>
      intro l l1 l2 h hfacts
      rw [download] at h
      rw [planDownload_cons] at hfacts
      cases hdm : downloadMatches rem hex localDir (rem.globMatches pat) l with
      | mk o lmid =>
          rw [hdm] at h
          cases o with
          | some e => simp at h
          | none =>
              have h2 : download rem hex localDir rest lmid = (none, l1) := h
              have hm2 : downloadMatches rem hex localDir (rem.globMatches pat) l2
                  = (none, l2) :=
                downloadMatches_rerun (rem.globMatches pat) l lmid l2 hdm
                  (fun g hg => hfacts g (List.mem_append.mpr (Or.inl hg)))
              have hstep : download rem hex localDir (pat :: rest) l2
                  = download rem hex localDir rest l2 := by
                rw [download, hm2]
              rw [hstep]
              exact ih lmid l1 l2 h2
                (fun g hg => hfacts g (List.mem_append.mpr (Or.inr hg)))

/-- C6: download is idempotent over the local tree: when the run's random
    temp names are fresh (no planned local path looks like a temp name), a
    local target path that already exists is skipped without being
    overwritten (downloadFile and downloadSymlink return the local tree
    unchanged), and after a successful run, running download again with the
    same remote state, patterns and local root succeeds and leaves the
    local tree byte-identical. -/
theorem claim_C6 (rem : Remote) (hex : GoStr) (localDir : RPath)
    (pats : List GoStr) (l l1 : LFS)
    (hfresh : freshPlan hex (planDownload rem localDir pats) = true)
    (h : download rem hex localDir pats l = (none, l1)) :
    (∀ rp v, lfsLookup l (localDir ++ rp) = some v →
        downloadFile rem hex localDir rp l = (none, l) ∧
        downloadSymlink rem localDir rp l = (none, l)) ∧
    download rem hex localDir pats l1 = (none, l1) := by
  constructor
  · intro rp v hv
    constructor
    · simp [downloadFile, hv]
    · simp [downloadSymlink, hv]
  · have hfr : ∀ f ∈ planDownload rem localDir pats,
        isTempPath hex (factPath f) = false := by
      rw [freshPlan] at hfresh
      intro f hf
      have h1 := List.all_eq_true.mp hfresh f hf
      simpa using h1
    exact download_rerun pats l l1 l1 h (download_post pats l l1 h hfr)

theorem claim_C6_witness :
    freshPlan c6Hex (planDownload c6Rem [] c6Pats) = true ∧
    download c6Rem c6Hex [] c6Pats c6L0 = (none, c6L1) ∧
    ((∀ rp v, lfsLookup c6L0 (([] : RPath) ++ rp) = some v →
        downloadFile c6Rem c6Hex [] rp c6L0 = (none, c6L0) ∧
        downloadSymlink c6Rem [] rp c6L0 = (none, c6L0)) ∧
      download c6Rem c6Hex [] c6Pats c6L1 = (none, c6L1)) :=
  ⟨by decide, by decide,
   claim_C6 c6Rem c6Hex [] c6Pats c6L0 c6L1 (by decide) (by decide)⟩
end Bichme
